import Mathlib

/-!
A verification development for the `dbos-static-analysis` ESLint rule
(`src/dbos-rules.ts`).  The analyzed program works on the `ts-morph` AST; we
shallowly embed the AST fragment the rule inspects as a finite tree of nodes.
Each node carries the data the rule reads through `ts-morph` and the type
oracle: a node identity (object identity in the source, modelled as a numeric
id), a syntax kind, an optional binding symbol (`getSymbol`), its source text
(`getText`), its position (`getLineAndColumnAtPos`), the declaration kind of
its enclosing variable statement (for variable declarations;
`getVariableStatement()?.getDeclarationKind()`, `none` when the declaration
has no enclosing variable statement, e.g. a `for`-loop initializer), and the
oracle's type name (`getTypeNameForTsMorphNode`).

Children are stored in source order.  We use compiler-style child lists
(no ts-morph SyntaxList wrapper nodes), with the tokens the rule actually
reads included: a binary expression is `[left, operatorToken, right]`, a
parenthesized expression is `[openParen, inner, closeParen]`, a template span
is `[expression, literalToken]`, an await expression is
`[awaitKeyword, expression]`, and a call/new expression is
`callee :: arguments`.  With this convention the traversal parent of a node
is its `getParent()`.

The recursive analysis functions take an explicit `fuel : Nat` argument,
which is purely the embedding's termination device (structural recursion on
`fuel` keeps every definition kernel-computable).  Theorems that need the
recursion to complete assume `size fnDecl < fuel`; the fuel-sufficiency
lemma `isLRFuel_sufficient` shows the recursion then never runs out, which
is the shallow-embedding counterpart of the source's termination argument
(the memoization map grows at every level of recursion).
-/

/-- `VariableDeclarationKind` of ts-morph: `var`, `let` or `const`. -/
inductive VariableDeclarationKind where
  | varKw | letKw | constKw
deriving DecidableEq, Repr

/-- The token kinds the rule inspects: the sixteen assignment operator
tokens of `assignmentTokenKinds`, plus the tokens that appear as children of
binary/property-access nodes. -/
inductive TokKind where
  | equalsToken | plusEqualsToken | minusEqualsToken | asteriskEqualsToken
  | asteriskAsteriskEqualsToken | slashEqualsToken | percentEqualsToken
  | lessThanLessThanEqualsToken | greaterThanGreaterThanEqualsToken
  | greaterThanGreaterThanGreaterThanEqualsToken | ampersandEqualsToken
  | barEqualsToken | barBarEqualsToken | ampersandAmpersandEqualsToken
  | questionQuestionEqualsToken | caretEqualsToken
  | plusToken | dotToken | otherToken
deriving DecidableEq, Repr

/-- The syntax kinds the rule dispatches on (`Node.isStringLiteral`,
`Node.isIdentifier`, ...).  Kinds the rule never tests specially (property
accesses, statements, ...) are `other`. -/
inductive NodeKind where
  | stringLiteral | numericLiteral | templateExpression | templateSpan
  | identifier | binaryExpression | parenthesizedExpression
  | callExpression | newExpression | awaitExpression | thisExpression
  | block | variableDeclaration | parameterDeclaration
  | functionDeclaration | methodDeclaration | constructorDeclaration
  | classDeclaration | decorator | token (k : TokKind) | other
deriving DecidableEq, Repr

/-- Per-node data read through ts-morph and the type oracle. -/
structure NodeInfo where
  id : Nat
  kind : NodeKind
  symbol : Option Nat := none
  text : String := ""
  line : Nat := 0
  col : Nat := 0
  declKind : Option VariableDeclarationKind := none
  typeName : String := ""
deriving DecidableEq, Repr

/-- A ts-morph AST node: its data plus its children in source order. -/
inductive Node where
  | node (info : NodeInfo) (children : List Node)
deriving Repr

def Node.info : Node → NodeInfo
  | .node i _ => i

def Node.children : Node → List Node
  | .node _ cs => cs

/-- The node's identity (object identity in the source). -/
def Node.nid (t : Node) : Nat := t.info.id

def Node.kind (t : Node) : NodeKind := t.info.kind

/-- `getNodeSymbol` (the testing-only panic is disabled:
`testingValidityOfTestsLocally = false`). -/
def Node.symbol (t : Node) : Option Nat := t.info.symbol

/-- `getText`. -/
def Node.text (t : Node) : String := t.info.text

/-- `getNodePosInFile(node).line`. -/
def Node.line (t : Node) : Nat := t.info.line

/-- `getNodePosInFile(node).column`. -/
def Node.col (t : Node) : Nat := t.info.col

def Node.declKind (t : Node) : Option VariableDeclarationKind := t.info.declKind

/-- `getTypeNameForTsMorphNode`, the type oracle adapter: the resolved
nominal type name of the node. -/
def Node.typeName (t : Node) : String := t.info.typeName


mutual

/-- The number of nodes of the tree (used only to state fuel-sufficiency
bounds; it is never evaluated inside the analysis). -/
def size : Node → Nat
  | .node i cs => 1 + sizeList cs
termination_by t => sizeOf t
decreasing_by simp only [Node.node.sizeOf_spec]; omega

/-- Total number of nodes of a forest. -/
def sizeList : List Node → Nat
  | [] => 0
  | c :: cs => size c + sizeList cs
termination_by l => sizeOf l
decreasing_by all_goals (simp only [List.cons.sizeOf_spec]; omega)

end

mutual

/-- All nodes of the subtree rooted at `t` (including `t`), in document
order.  Used only in proofs, as the universe of the memoization measure. -/
def allSubtrees : Node → List Node
  | .node i cs => .node i cs :: allSubtreesList cs
termination_by t => sizeOf t
decreasing_by simp only [Node.node.sizeOf_spec]; omega

/-- All nodes of a forest. -/
def allSubtreesList : List Node → List Node
  | [] => []
  | c :: cs => allSubtrees c ++ allSubtreesList cs
termination_by l => sizeOf l
decreasing_by all_goals (simp only [List.cons.sizeOf_spec]; omega)

end

/-- `t` occurs as a node of the tree rooted at `root`. -/
def InTree (t root : Node) : Prop := t ∈ allSubtrees root


/-- Structural invariants every real ts-morph AST satisfies, at one node:
a template span has exactly two children (checked by a panic in the
source), a parenthesized expression has exactly three (checked by a panic
in `unpackParenthesizedExpression`), a binary expression has left/operator/
right, and a variable declaration has an enclosing variable statement
(`getVariableStatement()` is defined; the source panics otherwise). -/
def wellFormedNode (t : Node) : Bool :=
  (t.kind != .templateSpan || t.children.length == 2) &&
  (t.kind != .parenthesizedExpression || t.children.length == 3) &&
  (t.kind != .binaryExpression || t.children.length == 3) &&
  (t.kind != .variableDeclaration || t.declKind.isSome)

/-- Decidable bounded check that every node of the tree is well formed
(`false` when the fuel runs out, so a `true` result is meaningful). -/
def wellFormedB : Nat → Node → Bool
  | 0, _ => false
  | fuel + 1, t => wellFormedNode t && t.children.all (wellFormedB fuel)

/-- Every node of the tree rooted at `root` is well formed. -/
def WellFormed (root : Node) : Prop :=
  ∀ t, InTree t root → wellFormedNode t = true

/-- `assignmentTokenKinds`: the operator token kinds that make a binary
expression an assignment. -/
def assignmentTokenKinds (k : TokKind) : Bool :=
  match k with
  | .equalsToken | .plusEqualsToken | .minusEqualsToken | .asteriskEqualsToken
  | .asteriskAsteriskEqualsToken | .slashEqualsToken | .percentEqualsToken
  | .lessThanLessThanEqualsToken | .greaterThanGreaterThanEqualsToken
  | .greaterThanGreaterThanGreaterThanEqualsToken | .ampersandEqualsToken
  | .barEqualsToken | .barBarEqualsToken | .ampersandAmpersandEqualsToken
  | .questionQuestionEqualsToken | .caretEqualsToken => true
  | _ => false

/-- Is this token node one of the assignment operator tokens? -/
def isAssignmentOperatorToken (t : Node) : Bool :=
  match t.kind with
  | .token k => assignmentTokenKinds k
  | _ => false

/-- `reduceNodeToLeftmostLeaf`: repeatedly take the first child, unwrapping
parenthesized expressions via `unpackParenthesizedExpression` (whose panic,
fired when a parenthesized expression does not have exactly three children,
is modelled as `Except.error`).  `fuel` is the embedding's termination
device; when it runs out the current node is returned (never reached from
the entry points, which pass fuel larger than the tree size). -/
def reduceNodeToLeftmostLeaf (fuel : Nat) (t : Node) : Except Unit Node :=
  match fuel with
  | 0 => .ok t
  | fuel + 1 =>
    if t.kind = .parenthesizedExpression then
      match t.children with
      | [_, inner, _] => reduceNodeToLeftmostLeaf fuel inner
      | _ => .error ()
    else
      match t.children with
      | [] => .ok t
      | c :: _ => reduceNodeToLeftmostLeaf fuel c

/-- `getLAndRValuesIfAssignment`: for a binary expression whose operator
token is an assignment token and whose left-hand side reduces to an
identifier, return that identifier and the right-hand side.  `Except.error`
propagates the panic inside `reduceNodeToLeftmostLeaf`. -/
def getLAndRValuesIfAssignment (fuel : Nat) (t : Node) :
    Except Unit (Option (Node × Node)) :=
  if t.kind = .binaryExpression then
    match t.children with
    | [l, op, r] =>
      if isAssignmentOperatorToken op then
        match reduceNodeToLeftmostLeaf fuel l with
        | .error e => .error e
        | .ok lhs =>
          if lhs.kind = .identifier then .ok (some (lhs, r)) else .ok none
      else .ok none
    | _ => .error ()
  else .ok none

/-- `identifierUsageIsValid`: a `var`-declared variable may be used before
its declaration; a `let`/`const` one only textually after it.  The source
panics (`Except.error`) when the declaration has no enclosing variable
statement. -/
def identifierUsageIsValid (identifierUsage decl : Node) : Except Unit Bool :=
  match decl.declKind with
  | none => .error ()
  | some .varKw => .ok true
  | some _ =>
    let declIsOnPrevLine := decl.line < identifierUsage.line
    let declIsOnSameLineButBeforeIdentifier :=
      decl.line = identifierUsage.line ∧ decl.col < identifierUsage.col
    .ok (decide (declIsOnPrevLine ∨ declIsOnSameLineButBeforeIdentifier))

/-- `fnDecl.getParameters()`. -/
def getParameters (fnDecl : Node) : List Node :=
  fnDecl.children.filter (fun c => c.kind == .parameterDeclaration)

/-- `fnDecl.getBody()`. -/
def getBody (fnDecl : Node) : Option Node :=
  fnDecl.children.find? (fun c => c.kind == .block)

/-- `node.getTemplateSpans()`. -/
def getTemplateSpans (t : Node) : List Node :=
  t.children.filter (fun c => c.kind == .templateSpan)

/-- `decl.getInitializer()`: with the child convention
`[name, equalsToken, initializer]` this is the third child. -/
def varDeclInitializer (decl : Node) : Option Node := decl.children[2]?

/-- `functionHasDecoratorInSet`: some modifier is a decorator whose name is
in the set (a decorator child's `text` models `getName()`). -/
def functionHasDecoratorInSet (fnDecl : Node) (decoratorSet : List String) : Bool :=
  fnDecl.children.any (fun m => m.kind == .decorator && decoratorSet.contains m.text)

/-- The values yielded by `getRValuesAssignedToIdentifier`: either an
r-value expression assigned to the identifier, or the marker recorded when
an occurrence's parent is a parameter declaration. -/
inductive RValue where
  | expr (e : Node)
  | notRValueButFnParam
deriving Repr

/-- One step of the generator body of `getRValuesAssignedToIdentifier`:
given an occurrence `child` whose parent is `parent`, the r-values (or
parameter marker) this occurrence contributes.  An occurrence counts only
when it is a different node than `identifier`, is an identifier, and has
the same symbol.  A variable-declaration parent contributes its initializer
unless the hoisting check discards the occurrence; an assignment parent
contributes its right-hand side; a parameter-declaration parent contributes
the marker. -/
def rValuesFromOccurrence (fuel : Nat) (identifier parent child : Node) :
    Except Unit (List RValue) :=
  if child.nid != identifier.nid && child.kind == .identifier
      && child.symbol == identifier.symbol then
    if parent.kind = .variableDeclaration then
      match identifierUsageIsValid identifier parent with
      | .error e => .error e
      | .ok valid =>
        if valid then
          match varDeclInitializer parent with
          | none => .ok []
          | some init => .ok [.expr init]
        else .ok []
    else
      match getLAndRValuesIfAssignment fuel parent with
      | .error e => .error e
      | .ok (some (_, r)) => .ok [.expr r]
      | .ok none =>
        if parent.kind = .parameterDeclaration then .ok [.notRValueButFnParam]
        else .ok []
  else .ok []

/-- The loop body of `getCorrespondingRValuesWithinNode` over a child
list: each child's descendants are scanned (through `rec`) before the
child itself is checked against its parent, as in the source generator. -/
def rValuesWithinChildren (wfuel : Nat) (rec : Node → Except Unit (List RValue))
    (identifier parent : Node) : List Node → Except Unit (List RValue)
  | [] => .ok []
  | c :: rest =>
    match rec c with
    | .error e => .error e
    | .ok rs1 =>
      match rValuesFromOccurrence wfuel identifier parent c with
      | .error e => .error e
      | .ok rs2 =>
        match rValuesWithinChildren wfuel rec identifier parent rest with
        | .error e => .error e
        | .ok rs3 => .ok (rs1 ++ rs2 ++ rs3)

/-- `getCorrespondingRValuesWithinNode`: scan all descendants of `node`,
yielding, for each occurrence of `identifier`'s symbol, the r-values its
parent contributes. -/
def getCorrespondingRValuesWithinNode (wfuel : Nat) (identifier : Node) :
    Nat → Node → Except Unit (List RValue)
  | 0, _ => .ok []
  | fuel + 1, node =>
    rValuesWithinChildren wfuel (getCorrespondingRValuesWithinNode wfuel identifier fuel)
      identifier node node.children

/-- Sequentially scan a list of parameter nodes. -/
def rValuesForParameters (fuel : Nat) (identifier : Node) :
    List Node → Except Unit (List RValue)
  | [] => .ok []
  | p :: rest =>
    match getCorrespondingRValuesWithinNode fuel identifier fuel p with
    | .error e => .error e
    | .ok rs1 =>
      match rValuesForParameters fuel identifier rest with
      | .error e => .error e
      | .ok rs2 => .ok (rs1 ++ rs2)

/-- `getRValuesAssignedToIdentifier`: scan every parameter, then the whole
function declaration, for occurrences of `identifier`'s symbol and collect
the r-values assigned to it (the source's generator, collected eagerly). -/
def getRValuesAssignedToIdentifier (fuel : Nat) (fnDecl identifier : Node) :
    Except Unit (List RValue) :=
  match rValuesForParameters fuel identifier (getParameters fnDecl) with
  | .error e => .error e
  | .ok rs1 =>
    match getCorrespondingRValuesWithinNode fuel identifier fuel fnDecl with
    | .error e => .error e
    | .ok rs2 => .ok (rs1 ++ rs2)

/-- The per-query taint state: `nodeLRResults` (the memoization map, keyed
by node identity) and `rootProblemNodes` (a JS `Set`, insertion order). -/
structure TaintSt where
  cache : List (Nat × Bool)
  roots : List Node
deriving Repr

/-- `nodeLRResults.get(node)`. -/
def lookupCache (cache : List (Nat × Bool)) (i : Nat) : Option Bool :=
  match cache.find? (fun p => p.1 == i) with
  | some p => some p.2
  | none => none

/-- `nodeLRResults.set(node, b)` (prepend; `lookupCache` sees the newest
binding, so this models overwriting). -/
def setCache (cache : List (Nat × Bool)) (i : Nat) (b : Bool) : List (Nat × Bool) :=
  (i, b) :: cache

/-- `rootProblemNodes.add(node)`: insert if no node with this identity is
present, keeping insertion order. -/
def addRoot (roots : List Node) (t : Node) : List Node :=
  if roots.any (fun r => r.nid == t.nid) then roots else roots ++ [t]

/-- Result of one (possibly partial) literal-reducibility evaluation:
either a boolean with the updated state, or an error (a source panic, or
the embedding's fuel running out — which `isLRFuel_sufficient` rules out
for fuel above the tree size). -/
inductive TaintRes where
  | ok (b : Bool) (st : TaintSt)
  | err
deriving Repr

/-- The template-expression case of `isLRWithoutResultCache`: every span
(children `[expression, literalTail]`; any other shape panics) must have an
LR expression; evaluation short-circuits at the first failure. -/
def isLRSpans (rec : TaintSt → Node → TaintRes) (st : TaintSt) : List Node → TaintRes
  | [] => .ok true st
  | s :: rest =>
    match s.children with
    | [inner, _] =>
      match rec st inner with
      | .ok true st2 => isLRSpans rec st2 rest
      | .ok false st2 => .ok false st2
      | .err => .err
    | _ => .err

/-- Short-circuiting conjunction of literal-reducibility over a list (the
binary-expression case: `isLR(left) && isLR(right)`). -/
def isLRMany (rec : TaintSt → Node → TaintRes) (st : TaintSt) : List Node → TaintRes
  | [] => .ok true st
  | x :: rest =>
    match rec st x with
    | .ok true st2 => isLRMany rec st2 rest
    | .ok false st2 => .ok false st2
    | .err => .err

/-- The identifier case's loop over the assigned r-values: the parameter
marker records the identifier as a root problem node and fails; a non-LR
r-value fails; otherwise continue. -/
def isLRRValues (rec : TaintSt → Node → TaintRes) (st : TaintSt) (selfNode : Node) :
    List RValue → TaintRes
  | [] => .ok true st
  | .notRValueButFnParam :: _ => .ok false ⟨st.cache, addRoot st.roots selfNode⟩
  | .expr e :: rest =>
    match rec st e with
    | .ok true st2 => isLRRValues rec st2 selfNode rest
    | .ok false st2 => .ok false st2
    | .err => .err

/-- `isLRWithoutResultCache`: string/numeric literals are LR; a template
expression is LR when every span's expression is (a span with a child count
other than two panics); an identifier is LR when none of its assigned
r-values is the parameter marker and all are LR (the marker also records
the identifier as a root problem node); a binary expression is LR when both
operands are; a parenthesized expression is LR when its contents are; any
other node is recorded as a root problem node and is not LR.  `rec` is the
recursive evaluation (the memoized `isLR` at the remaining fuel). -/
def isLRWithoutResultCache (rec : TaintSt → Node → TaintRes) (wfuel : Nat)
    (fnDecl : Node) (st : TaintSt) (t : Node) : TaintRes :=
  match t.kind with
  | .stringLiteral => .ok true st
  | .numericLiteral => .ok true st
  | .templateExpression => isLRSpans rec st (getTemplateSpans t)
  | .identifier =>
    match getRValuesAssignedToIdentifier wfuel fnDecl t with
    | .error _ => .err
    | .ok rvs => isLRRValues rec st t rvs
  | .binaryExpression =>
    match t.children with
    | [l, _, r] => isLRMany rec st [l, r]
    | _ => .err
  | .parenthesizedExpression =>
    match t.children with
    | [_, inner, _] => rec st inner
    | _ => .err
  | _ => .ok false ⟨st.cache, addRoot st.roots t⟩

/-- `isLR`: memoized literal-reducibility.  A cached node returns its mark
(in particular a node currently being computed returns its provisional
`true`, breaking reference cycles); otherwise the node is provisionally
marked `true`, evaluated by `isLRWithoutResultCache`, and the mark is
overwritten with the result. -/
def isLRFuel (wfuel : Nat) (fnDecl : Node) : Nat → TaintSt → Node → TaintRes
  | 0, _, _ => .err
  | fuel + 1, st, t =>
    match lookupCache st.cache t.nid with
    | some b => .ok b st
    | none =>
      match isLRWithoutResultCache (isLRFuel wfuel fnDecl fuel) wfuel fnDecl
          ⟨setCache st.cache t.nid true, st.roots⟩ t with
      | .ok b st2 => .ok b ⟨setCache st2.cache t.nid b, st2.roots⟩
      | .err => .err

/-- Result of `checkCallForInjection`: no error, a sqlInjection diagnostic
with its format data, or a panic (the strict one-root-problem-node
requirement failing, a structural panic, or fuel exhaustion). -/
inductive CheckResult where
  | noError
  | sqlInjection (lineNumber : Nat) (theExpression : String)
  | panicked
deriving DecidableEq, Repr

/-- `checkCallForInjection`: evaluate literal-reducibility of the call
parameter with a fresh memoization map and root-problem-node set; when the
parameter is not LR, there must be exactly one root problem node, whose
line number and text become the diagnostic's format data. -/
def checkCallForInjection (fuel : Nat) (fnDecl callParam : Node) : CheckResult :=
  match isLRFuel fuel fnDecl fuel ⟨[], []⟩ callParam with
  | .err => .panicked
  | .ok true _ => .noError
  | .ok false st =>
    match st.roots with
    | [r] => .sqlInjection r.line r.text
    | _ => .panicked

/-- `ormClientInfoForRawSqlQueries`: ORM client type name to its raw SQL
query method names. -/
def ormClientInfoForRawSqlQueries (clientName : String) : Option (List String) :=
  if clientName = "PoolClient" then some ["TODO"]
  else if clientName = "PrismaClient" then some ["$queryRawUnsafe", "$executeRawUnsafe"]
  else if clientName = "TypeORMEntityManager" then some ["TODO"]
  else if clientName = "Knex" then some ["raw"]
  else none

/-- One level of `getDescendantsOfKind(SyntaxKind.Identifier)` over a
child list: each identifier child, followed by its own descendants. -/
def descendantIdentifiersList (rec : Node → List Node) : List Node → List Node
  | [] => []
  | c :: rest =>
    ((if c.kind == .identifier then [c] else []) ++ rec c)
      ++ descendantIdentifiersList rec rest

/-- `getDescendantsOfKind(SyntaxKind.Identifier)`: all strict descendants
that are identifiers, in document order. -/
def descendantIdentifiers : Nat → Node → List Node
  | 0, _ => []
  | fuel + 1, t => descendantIdentifiersList (descendantIdentifiers fuel) t.children

/-- `maybeGetArgsFromRawSqlCallSite`: recognize `client.<callName>(...)` or
`ctxt.client.<callName>(...)` raw SQL call sites.  The callee must contain
exactly two or three identifiers; with three, the first must have type
`TransactionContext` and is dropped; the (remaining) first identifier's
type must be a known ORM client whose method list contains the last
identifier's text.  On a match the call's arguments are returned. -/
def maybeGetArgsFromRawSqlCallSite (fuel : Nat) (callExpr : Node) : Option (List Node) :=
  match callExpr.children with
  | [] => none
  | callee :: args =>
    let identifiers := descendantIdentifiers fuel callee
    if identifiers.length != 2 && identifiers.length != 3 then none
    else
      let identifierTypeNames := identifiers.map Node.typeName
      let pruned : Option (List Node × List String) :=
        if identifiers.length == 3 then
          if identifierTypeNames.head? == some "TransactionContext" then
            some (identifiers.tail, identifierTypeNames.tail)
          else none
        else some (identifiers, identifierTypeNames)
      match pruned with
      | none => none
      | some (ids2, tys2) =>
        match tys2.head? with
        | none => none
        | some ty0 =>
          match ormClientInfoForRawSqlQueries ty0 with
          | none => none
          | some methods =>
            match ids2[1]? with
            | none => none
            | some m => if methods.contains m.text then some args else none

/-- What an error checker returns when it fires: a plain message id, or a
message id with format data (`lineNumber`, `theExpression`). -/
inductive CheckerResponse where
  | msg (messageId : String)
  | msgWithData (messageId : String) (lineNumber : Nat) (theExpression : String)
deriving DecidableEq, Repr

/-- The loop of `isSqlInjection` over the recognized call site's arguments:
return the first injection failure; a panic aborts the checker. -/
def findInjectionInArgs (fuel : Nat) (fnDecl : Node) :
    List Node → Except Unit (Option CheckerResponse)
  | [] => .ok none
  | arg :: rest =>
    match checkCallForInjection fuel fnDecl arg with
    | .panicked => .error ()
    | .noError => findInjectionInArgs fuel fnDecl rest
    | .sqlInjection l e => .ok (some (.msgWithData "sqlInjection" l e))

/-- The `isSqlInjection` error checker. -/
def isSqlInjection (fuel : Nat) (node fnDecl : Node) (_isLocal : Nat → Bool) :
    Except Unit (Option CheckerResponse) :=
  if node.kind = .callExpression then
    match maybeGetArgsFromRawSqlCallSite fuel node with
    | none => .ok none
    | some args => findInjectionInArgs fuel fnDecl args
  else .ok none

/-- The `mutatesGlobalVariable` error checker: fires when the node is an
assignment whose left-hand side reduces to an identifier with a resolvable
symbol that is not local. -/
def mutatesGlobalVariable (fuel : Nat) (node _fnDecl : Node) (isLocal : Nat → Bool) :
    Except Unit (Option CheckerResponse) :=
  match getLAndRValuesIfAssignment fuel node with
  | .error e => .error e
  | .ok none => .ok none
  | .ok (some (lhs, _)) =>
    match lhs.symbol with
    | none => .ok none
    | some s => if isLocal s then .ok none else .ok (some (.msg "globalMutation"))

/-- `bannedFunctionsWithArgCountRanges` (inclusive ranges;
`Number.MAX_SAFE_INTEGER` for an unbounded maximum). -/
def bannedFunctionsWithArgCountRanges (name : String) : Option (Nat × Nat) :=
  if name = "Date" then some (0, 0)
  else if name = "Date.now" then some (0, 0)
  else if name = "Math.random" then some (0, 0)
  else if name = "console.log" then some (0, 9007199254740991)
  else if name = "setTimeout" then some (1, 9007199254740991)
  else if name = "bcrypt.hash" then some (3, 3)
  else if name = "bcrypt.compare" then some (3, 3)
  else none

/-- `node.getExpression()` for a call/new expression: the callee (first
child under the `callee :: arguments` convention). -/
def getExpression (t : Node) : Option Node := t.children.head?

/-- `node.getArguments()` for a call/new expression. -/
def getArguments (t : Node) : List Node := t.children.tail

/-- The callee-name reconstruction of `callsBannedFunction`: the callee's
own text when it has no children, else the concatenation of its children's
texts (so `Math. random` becomes `Math.random`). -/
def calleeTokenText (expr : Node) : String :=
  match expr.children with
  | [] => expr.text
  | kids => String.join (kids.map Node.text)

/-- The `callsBannedFunction` error checker: fires on a call or new
expression whose reconstructed callee name is in the banned table and whose
argument count lies in the table's inclusive range; the table key is the
returned message id. -/
def callsBannedFunction (node _fnDecl : Node) (_isLocal : Nat → Bool) :
    Except Unit (Option CheckerResponse) :=
  if node.kind = .callExpression ∨ node.kind = .newExpression then
    match getExpression node with
    | none => .ok none
    | some expr =>
      let text := calleeTokenText expr
      match bannedFunctionsWithArgCountRanges text with
      | none => .ok none
      | some (mn, mx) =>
        let argCount := (getArguments node).length
        if mn ≤ argCount ∧ argCount ≤ mx then .ok (some (.msg text)) else .ok none
  else .ok none

/-- `awaitableTypes`: types a deterministic function may await on. -/
def awaitableTypes : List String := ["WorkflowContext"]

/-- The helper-function escape hatch is enabled in the source. -/
def ignoreAwaitsForCallsWithAContextParam : Bool := true

/-- `validTypeExistsInFunctionCallParams`: some argument's resolved type
name is in the valid set. -/
def validTypeExistsInFunctionCallParams (functionCall : Node) (validTypes : List String) : Bool :=
  ((getArguments functionCall).map Node.typeName).any (fun ty => validTypes.contains ty)

/-- `node.getExpression()` for an await expression (children
`[awaitKeyword, expression]`). -/
def awaitGetExpression (t : Node) : Option Node := t.children[1]?

/-- The `awaitsOnNotAllowedType` error checker: on `await <call>`, reduce
the call to its leftmost base; only identifier/`this` bases are checked
(every other shape, literals included, is skipped — the source returns in
both branches); pass when the base's type is awaitable, or when the escape
hatch finds an awaitable-typed argument; otherwise fire. -/
def awaitsOnNotAllowedType (fuel : Nat) (node _fnDecl : Node) (_isLocal : Nat → Bool) :
    Except Unit (Option CheckerResponse) :=
  if node.kind = .awaitExpression then
    match awaitGetExpression node with
    | none => .ok none
    | some functionCall =>
      if functionCall.kind ≠ .callExpression then .ok none
      else
        match reduceNodeToLeftmostLeaf fuel functionCall with
        | .error e => .error e
        | .ok lhs =>
          if lhs.kind ≠ .identifier ∧ lhs.kind ≠ .thisExpression then .ok none
          else
            let awaitingOnAllowedType := awaitableTypes.contains lhs.typeName
            if !awaitingOnAllowedType then
              if ignoreAwaitsForCallsWithAContextParam
                  && validTypeExistsInFunctionCallParams functionCall awaitableTypes then
                .ok none
              else .ok (some (.msg "awaitingOnNotAllowedType"))
            else .ok none
  else .ok none

/-- One diagnostic emission (`eslintContext.report`): the reported node's
identity plus the checker's response. -/
structure Report where
  nodeId : Nat
  response : CheckerResponse
deriving DecidableEq, Repr

/-- The traversal state of `analyzeFunction`: the scope-frame stack (top
frame first), the diagnostics reported so far, and whether a checker
exception has been thrown (the source catches no exceptions in
`analyzeFrame`, so a thrown exception aborts the rest of the traversal). -/
structure TravSt where
  stack : List (List Nat)
  reports : List Report
  aborted : Bool
deriving DecidableEq, Repr

/-- `isLocal`: the symbol appears in some frame currently on the stack. -/
def isLocalIn (stack : List (List Nat)) (symbol : Nat) : Bool :=
  stack.any (fun frame => frame.contains symbol)

/-- `pushFrame`. -/
def pushFrame (st : TravSt) : TravSt := { st with stack := [] :: st.stack }

/-- `popFrame`. -/
def popFrame (st : TravSt) : TravSt := { st with stack := st.stack.tail }

/-- `getCurrentFrame().add(symbol)` (a JS `Set`: insert if absent). -/
def addLocal (st : TravSt) (s : Nat) : TravSt :=
  match st.stack with
  | [] => st
  | f :: rest => { st with stack := (if f.contains s then f else f ++ [s]) :: rest }

/-- `decoratorSetErrorCheckerMapping` applied to one node: the responses of
the checkers for the first decorator set the function carries
(`Transaction` → `isSqlInjection`; `Workflow` → `mutatesGlobalVariable`,
`callsBannedFunction`, `awaitsOnNotAllowedType`; the loop breaks after the
first matching set). -/
def checkersResponses (fuel : Nat) (node fnDecl : Node) (isLocal : Nat → Bool) :
    List (Except Unit (Option CheckerResponse)) :=
  if functionHasDecoratorInSet fnDecl ["Transaction"] then
    [isSqlInjection fuel node fnDecl isLocal]
  else if functionHasDecoratorInSet fnDecl ["Workflow"] then
    [mutatesGlobalVariable fuel node fnDecl isLocal,
     callsBannedFunction node fnDecl isLocal,
     awaitsOnNotAllowedType fuel node fnDecl isLocal]
  else []

/-- `runErrorChecker`, iterated over the applicable checkers: a firing
checker reports its response; a throwing checker aborts (nothing catches
the exception), so the remaining checkers do not run. -/
def runErrorCheckers (node : Node) (st : TravSt) :
    List (Except Unit (Option CheckerResponse)) → TravSt
  | [] => st
  | r :: rest =>
    if st.aborted then st else
    match r with
    | .error _ => { st with aborted := true }
    | .ok none => runErrorCheckers node st rest
    | .ok (some resp) =>
      runErrorCheckers node { st with reports := st.reports ++ [⟨node.nid, resp⟩] } rest

/-- Fold `analyzeFrame` (given as `recFrame`) over a child list
(`node.forEachChild(analyzeFrame)`). -/
def analyzeFrameList (recFrame : TravSt → Node → TravSt) (st : TravSt) :
    List Node → TravSt
  | [] => st
  | c :: rest => analyzeFrameList recFrame (recFrame st c) rest

/-- `analyzeFunction`'s body, given the frame analyzer for one node
(`recFrameFor fnDecl`): a missing body is a silent no-op; otherwise the
body is traversed with a fresh stack consisting of one empty frame.  The
caller's stack is untouched (the stack is a local of each invocation);
reports accumulate and an exception keeps propagating. -/
def analyzeFunctionWith (recFrameFor : Node → TravSt → Node → TravSt)
    (st : TravSt) (fnDecl : Node) : TravSt :=
  if st.aborted then st else
  match getBody fnDecl with
  | none => st
  | some body =>
    let inner := analyzeFrameList (recFrameFor fnDecl)
      { stack := [[]], reports := st.reports, aborted := st.aborted } body.children
    { stack := st.stack, reports := inner.reports, aborted := inner.aborted }

/-- Fold `analyzeFunctionWith` over a list of function declarations. -/
def analyzeFunctionListWith (recFrameFor : Node → TravSt → Node → TravSt)
    (st : TravSt) : List Node → TravSt
  | [] => st
  | f :: rest => analyzeFunctionListWith recFrameFor (analyzeFunctionWith recFrameFor st f) rest

/-- `analyzeClass`: analyze each constructor, then each method (each gets a
fresh stack through `analyzeFunctionWith`). -/
def analyzeClassWith (recFrameFor : Node → TravSt → Node → TravSt)
    (st : TravSt) (theClass : Node) : TravSt :=
  analyzeFunctionListWith recFrameFor st
    (theClass.children.filter (fun c => c.kind == .constructorDeclaration) ++
     theClass.children.filter (fun c => c.kind == .methodDeclaration))

/-- `analyzeFrame`: class declarations are analyzed per member with fresh
stacks; nested function declarations restart `analyzeFunction`; a block
pushes a fresh frame, traverses its children and pops the frame; a variable
declaration registers its symbol in the current top frame (parameters are
never registered) and descends; any other node runs the applicable error
checkers and descends.  Nothing is done on an aborted state (a thrown
checker exception propagates; in particular a block's pop does not happen,
and later siblings are not visited). -/
def analyzeFrame (wfuel : Nat) : Nat → Node → TravSt → Node → TravSt
  | 0, _, st, _ => st
  | fuel + 1, fnDecl, st, t =>
    if st.aborted then st
    else if t.kind = .classDeclaration then
      analyzeClassWith (analyzeFrame wfuel fuel) st t
    else if t.kind = .functionDeclaration then
      analyzeFunctionWith (analyzeFrame wfuel fuel) st t
    else if t.kind = .block then
      let st2 := analyzeFrameList (analyzeFrame wfuel fuel fnDecl) (pushFrame st) t.children
      if st2.aborted then st2 else popFrame st2
    else if t.kind = .variableDeclaration then
      let st1 := match t.symbol with
                 | some s => addLocal st s
                 | none => st
      analyzeFrameList (analyzeFrame wfuel fuel fnDecl) st1 t.children
    else
      let st1 := runErrorCheckers t st (checkersResponses wfuel t fnDecl (isLocalIn st.stack))
      if st1.aborted then st1
      else analyzeFrameList (analyzeFrame wfuel fuel fnDecl) st1 t.children

/-- `analyzeFunction` at a given fuel and starting state. -/
def analyzeFunctionFuel (wfuel fuel : Nat) (st : TravSt) (fnDecl : Node) : TravSt :=
  analyzeFunctionWith (analyzeFrame wfuel fuel) st fnDecl

/-- Entry point: analyze one function declaration with an empty initial
state (no reports, no pending exception, empty outer stack). -/
def analyzeFunction (fuel : Nat) (fnDecl : Node) : TravSt :=
  analyzeFunctionFuel fuel fuel { stack := [], reports := [], aborted := false } fnDecl

/-! ### Concrete test programs

Small embedded programs used as witnesses and counterexamples.  Node ids
are distinct within each program; positions follow the listing in each
comment. -/

/-- An identifier leaf. -/
def mkIdent (id sym : Nat) (txt : String) (line col : Nat) (ty : String := "") : Node :=
  .node { id := id, kind := .identifier, symbol := some sym, text := txt,
          line := line, col := col, typeName := ty } []

/-- An identifier leaf with no binding symbol (e.g. a property name). -/
def mkName (id : Nat) (txt : String) (ty : String := "") : Node :=
  .node { id := id, kind := .identifier, text := txt, typeName := ty } []

/-- A token leaf. -/
def mkTok (id : Nat) (k : TokKind) (txt : String) : Node :=
  .node { id := id, kind := .token k, text := txt } []

/-- A string literal leaf. -/
def mkStr (id : Nat) (txt : String) (line col : Nat) : Node :=
  .node { id := id, kind := .stringLiteral, text := txt, line := line, col := col } []

/-- A `ctxt.client.<m>` callee (a property-access chain): `ctxt` has type
`TransactionContext`, `client` has type `Knex`. -/
def mkRawCallee (baseId : Nat) (m : String) : Node :=
  .node { id := baseId, kind := .other, text := "ctxt.client." ++ m }
    [.node { id := baseId + 1, kind := .other, text := "ctxt.client" }
       [mkIdent (baseId + 2) 2 "ctxt" 0 0 "TransactionContext",
        mkTok (baseId + 3) .dotToken ".",
        mkName (baseId + 4) "client" "Knex"],
     mkTok (baseId + 5) .dotToken ".",
     mkName (baseId + 6) m]

/-- Program W1 (reference cycle): a `Transaction`-decorated method

```
testCycle(ctxt: TransactionContext) {
  let z = "a";          // line 2
  z = z + z;            // line 3
  ctxt.client.raw(z);   // line 4
}
```

`z` has symbol 1. -/
def w1zArg : Node := mkIdent 33 1 "z" 4 19

def w1strA : Node := mkStr 15 "\"a\"" 2 11

def w1varDeclZ : Node :=
  .node { id := 12, kind := .variableDeclaration, symbol := some 1, text := "z = \"a\"",
          line := 2, col := 7, declKind := some .letKw }
    [mkIdent 13 1 "z" 2 7, mkTok 14 .equalsToken "=", w1strA]

def w1plusExpr : Node :=
  .node { id := 20, kind := .binaryExpression, text := "z + z", line := 3, col := 7 }
    [mkIdent 21 1 "z" 3 7, mkTok 22 .plusToken "+", mkIdent 23 1 "z" 3 11]

def w1assign : Node :=
  .node { id := 17, kind := .binaryExpression, text := "z = z + z", line := 3, col := 3 }
    [mkIdent 18 1 "z" 3 3, mkTok 19 .equalsToken "=", w1plusExpr]

def w1rawCall : Node :=
  .node { id := 25, kind := .callExpression, text := "ctxt.client.raw(z)", line := 4, col := 3 }
    [mkRawCallee 26 "raw", w1zArg]

def w1fn : Node :=
  .node { id := 0, kind := .methodDeclaration, text := "testCycle" }
    [.node { id := 1, kind := .decorator, text := "Transaction" } [],
     mkName 2 "testCycle",
     .node { id := 3, kind := .parameterDeclaration, symbol := some 2, text := "ctxt" }
       [mkIdent 4 2 "ctxt" 1 13 "TransactionContext"],
     .node { id := 10, kind := .block } [
       .node { id := 11, kind := .other, text := "let z = \"a\";" } [w1varDeclZ],
       .node { id := 16, kind := .other, text := "z = z + z;" } [w1assign],
       .node { id := 24, kind := .other, text := "ctxt.client.raw(z);" } [w1rawCall]]]

/-- Program W2 (parameter taint): a `Transaction`-decorated method

```
testParam(ctxt: TransactionContext, p: string) {
  ctxt.client.raw(p);   // line 2
}
```

`p` has symbol 11, `ctxt` symbol 12. -/
def w2pArg : Node := mkIdent 57 11 "p" 2 19

def w2paramP : Node :=
  .node { id := 45, kind := .parameterDeclaration, symbol := some 11, text := "p: string" }
    [mkIdent 46 11 "p" 1 37]

def w2rawCall : Node :=
  .node { id := 49, kind := .callExpression, text := "ctxt.client.raw(p)", line := 2, col := 3 }
    [mkRawCallee 50 "raw", w2pArg]

def w2fn : Node :=
  .node { id := 40, kind := .methodDeclaration, text := "testParam" }
    [.node { id := 41, kind := .decorator, text := "Transaction" } [],
     mkName 42 "testParam",
     .node { id := 43, kind := .parameterDeclaration, symbol := some 12, text := "ctxt" }
       [mkIdent 44 12 "ctxt" 1 15 "TransactionContext"],
     w2paramP,
     .node { id := 47, kind := .block } [
       .node { id := 48, kind := .other, text := "ctxt.client.raw(p);" } [w2rawCall]]]

/-- Program W3 (a detector exception and a suppressed sibling): a
`Transaction`-decorated method

```
testThrow(ctxt: TransactionContext, p: string) {
  for (let z = "a"; ; ) { }   // line 2 — z's declaration has no enclosing
                              // variable statement (for-loop initializer)
  ctxt.client.raw(z);         // line 3 — tracing z panics in
                              // identifierUsageIsValid
  ctxt.client.raw(p);         // line 4 — would be reported, but the
                              // exception aborts the traversal first
}
```

`z` has symbol 20, `p` symbol 21. -/
def w3pArg : Node := mkIdent 109 21 "p" 4 19

def w3varDeclZ : Node :=
  .node { id := 80, kind := .variableDeclaration, symbol := some 20, text := "z = \"a\"",
          line := 2, col := 12, declKind := none }
    [mkIdent 81 20 "z" 2 12, mkTok 82 .equalsToken "=", mkStr 83 "\"a\"" 2 16]

def w3callZ : Node :=
  .node { id := 89, kind := .callExpression, text := "ctxt.client.raw(z)", line := 3, col := 3 }
    [mkRawCallee 90 "raw", mkIdent 97 20 "z" 3 19]

def w3callP : Node :=
  .node { id := 101, kind := .callExpression, text := "ctxt.client.raw(p)", line := 4, col := 3 }
    [mkRawCallee 102 "raw", w3pArg]

def w3fn : Node :=
  .node { id := 70, kind := .methodDeclaration, text := "testThrow" }
    [.node { id := 71, kind := .decorator, text := "Transaction" } [],
     mkName 72 "testThrow",
     .node { id := 73, kind := .parameterDeclaration, symbol := some 22, text := "ctxt" }
       [mkIdent 74 22 "ctxt" 1 15 "TransactionContext"],
     .node { id := 75, kind := .parameterDeclaration, symbol := some 21, text := "p: string" }
       [mkIdent 76 21 "p" 1 37],
     .node { id := 77, kind := .block } [
       .node { id := 78, kind := .other, text := "for (let z = \"a\"; ; ) { }" }
         [.node { id := 79, kind := .other, text := "let z = \"a\"" } [w3varDeclZ]],
       .node { id := 88, kind := .other, text := "ctxt.client.raw(z);" } [w3callZ],
       .node { id := 100, kind := .other, text := "ctxt.client.raw(p);" } [w3callP]]]

/-- Program W4 (global mutation): a `Workflow`-decorated method

```
wf() {
  x = 5;   // line 2; x is declared outside the method (symbol 30)
}
```
-/
def w4assign : Node :=
  .node { id := 125, kind := .binaryExpression, text := "x = 5", line := 2, col := 3 }
    [mkIdent 126 30 "x" 2 3,
     mkTok 127 .equalsToken "=",
     .node { id := 128, kind := .numericLiteral, text := "5", line := 2, col := 7 } []]

def w4fn : Node :=
  .node { id := 120, kind := .methodDeclaration, text := "wf" }
    [.node { id := 121, kind := .decorator, text := "Workflow" } [],
     mkName 122 "wf",
     .node { id := 123, kind := .block } [
       .node { id := 124, kind := .other, text := "x = 5;" } [w4assign]]]

/-- Program W5 (assignment to an own parameter): a `Workflow`-decorated
method

```
wf(p) {
  p = 5;   // line 2; p is the function's own parameter (symbol 40)
}
```
-/
def w5assign : Node :=
  .node { id := 147, kind := .binaryExpression, text := "p = 5", line := 2, col := 3 }
    [mkIdent 148 40 "p" 2 3,
     mkTok 149 .equalsToken "=",
     .node { id := 150, kind := .numericLiteral, text := "5", line := 2, col := 7 } []]

def w5fn : Node :=
  .node { id := 140, kind := .methodDeclaration, text := "wf" }
    [.node { id := 141, kind := .decorator, text := "Workflow" } [],
     mkName 142 "wf",
     .node { id := 143, kind := .parameterDeclaration, symbol := some 40, text := "p" }
       [mkIdent 144 40 "p" 1 6],
     .node { id := 145, kind := .block } [
       .node { id := 146, kind := .other, text := "p = 5;" } [w5assign]]]

/-- `await ctxt.foo()` where `ctxt` has the sanctioned type
`WorkflowContext`. -/
def w6callOk : Node :=
  .node { id := 162, kind := .callExpression, text := "ctxt.foo()" }
    [.node { id := 163, kind := .other, text := "ctxt.foo" }
       [mkIdent 164 60 "ctxt" 1 9 "WorkflowContext",
        mkTok 165 .dotToken ".",
        mkName 166 "foo"]]

def w6awaitOk : Node :=
  .node { id := 160, kind := .awaitExpression, text := "await ctxt.foo()" }
    [mkTok 161 .otherToken "await", w6callOk]

/-- `await obj.foo()` where `obj` has an arbitrary class type and no
argument has a sanctioned type. -/
def w6callBad : Node :=
  .node { id := 172, kind := .callExpression, text := "obj.foo()" }
    [.node { id := 173, kind := .other, text := "obj.foo" }
       [mkIdent 174 61 "obj" 1 9 "MyClass",
        mkTok 175 .dotToken ".",
        mkName 176 "foo"]]

def w6awaitBad : Node :=
  .node { id := 170, kind := .awaitExpression, text := "await obj.foo()" }
    [mkTok 171 .otherToken "await", w6callBad]

/-- `await getUser(ctxt)`: a helper call forwarding a sanctioned-typed
argument. -/
def w6callHelper : Node :=
  .node { id := 182, kind := .callExpression, text := "getUser(ctxt)" }
    [mkIdent 183 62 "getUser" 1 9 "MyHelper",
     mkIdent 184 60 "ctxt" 1 17 "WorkflowContext"]

def w6awaitHelper : Node :=
  .node { id := 180, kind := .awaitExpression, text := "await getUser(ctxt)" }
    [mkTok 181 .otherToken "await", w6callHelper]

/-- `setTimeout(fn)`: one argument. -/
def w7setTimeoutOne : Node :=
  .node { id := 190, kind := .callExpression, text := "setTimeout(fn)" }
    [mkName 191 "setTimeout",
     .node { id := 192, kind := .other, text := "fn" } []]

/-- `setTimeout()`: zero arguments. -/
def w7setTimeoutZero : Node :=
  .node { id := 193, kind := .callExpression, text := "setTimeout()" }
    [mkName 194 "setTimeout"]

/-- Program W8 (concatenation closure): a `Transaction`-decorated method

```
testConcat(ctxt: TransactionContext) {
  let x = "a";          // line 2
  let y = x + "b";      // line 3
  ctxt.client.raw(y);   // line 4
}
```

`x` has symbol 50, `y` symbol 51. -/
def w8strA : Node := mkStr 210 "\"a\"" 2 11

def w8varDeclX : Node :=
  .node { id := 207, kind := .variableDeclaration, symbol := some 50, text := "x = \"a\"",
          line := 2, col := 7, declKind := some .letKw }
    [mkIdent 208 50 "x" 2 7, mkTok 209 .equalsToken "=", w8strA]

def w8xUse : Node := mkIdent 216 50 "x" 3 11

def w8strB : Node := mkStr 218 "\"b\"" 3 15

def w8plusExpr : Node :=
  .node { id := 215, kind := .binaryExpression, text := "x + \"b\"", line := 3, col := 11 }
    [w8xUse, mkTok 217 .plusToken "+", w8strB]

def w8varDeclY : Node :=
  .node { id := 212, kind := .variableDeclaration, symbol := some 51, text := "y = x + \"b\"",
          line := 3, col := 7, declKind := some .letKw }
    [mkIdent 213 51 "y" 3 7, mkTok 214 .equalsToken "=", w8plusExpr]

def w8yArg : Node := mkIdent 228 51 "y" 4 19

def w8rawCall : Node :=
  .node { id := 220, kind := .callExpression, text := "ctxt.client.raw(y)", line := 4, col := 3 }
    [mkRawCallee 221 "raw", w8yArg]

def w8fn : Node :=
  .node { id := 200, kind := .methodDeclaration, text := "testConcat" }
    [.node { id := 201, kind := .decorator, text := "Transaction" } [],
     mkName 202 "testConcat",
     .node { id := 203, kind := .parameterDeclaration, symbol := some 52, text := "ctxt" }
       [mkIdent 204 52 "ctxt" 1 12 "TransactionContext"],
     .node { id := 205, kind := .block } [
       .node { id := 206, kind := .other, text := "let x = \"a\";" } [w8varDeclX],
       .node { id := 211, kind := .other, text := "let y = x + \"b\";" } [w8varDeclY],
       .node { id := 219, kind := .other, text := "ctxt.client.raw(y);" } [w8rawCall]]]

/-! ### Proof-support definitions -/

/-- The number of arena nodes of `fnDecl` whose literal-reducibility is not
yet cached: the measure that shrinks as the memoized recursion proceeds. -/
def uncachedCount (fnDecl : Node) (st : TaintSt) : Nat :=
  (((allSubtrees fnDecl).map Node.nid).filter
    (fun i => (lookupCache st.cache i).isNone)).length

/-- The memoization map of `st2` knows every key the map of `st` knows. -/
def KeysExtend (st st2 : TaintSt) : Prop :=
  ∀ i, (lookupCache st.cache i).isSome = true → (lookupCache st2.cache i).isSome = true

/-- No node is cached as non-literal-reducible (holds throughout a query
until its first failure, which immediately propagates to the top). -/
def NoFalse (st : TaintSt) : Prop :=
  ∀ i, lookupCache st.cache i ≠ some false

/-- The symbols of the variable declarations occurring in `t` — exactly
the symbols `analyzeFrame` can ever register in a scope frame. -/
def varDeclSymsIn (t : Node) : List Nat :=
  (allSubtrees t).filterMap
    (fun u => if u.kind = .variableDeclaration then u.symbol else none)

/-- Modelled from the spec (§4.6 and the concatenation-closure property):
a value built only from string/number literals, template expressions all of
whose interpolated parts are literal-reducible, binary concatenations of
two literal-reducible operands, parenthesized literal-reducible
expressions, and identifiers all of whose traced assignments are
literal-reducible (with no parameter marker among them).  `wfuel` is the
fuel with which the identifier case's assignments are traced, matching the
evaluation being compared against. -/
inductive IsLRSpec (wfuel : Nat) (fnDecl : Node) : Node → Prop where
  | strLit {t : Node} : t.kind = .stringLiteral → IsLRSpec wfuel fnDecl t
  | numLit {t : Node} : t.kind = .numericLiteral → IsLRSpec wfuel fnDecl t
  | template {t : Node} : t.kind = .templateExpression →
      (∀ s ∈ getTemplateSpans t, s.children.length = 2) →
      (∀ s, s ∈ getTemplateSpans t → ∀ inner, s.children.head? = some inner →
        IsLRSpec wfuel fnDecl inner) →
      IsLRSpec wfuel fnDecl t
  | concat {t l op r : Node} : t.kind = .binaryExpression →
      t.children = [l, op, r] → op.kind = .token .plusToken →
      IsLRSpec wfuel fnDecl l → IsLRSpec wfuel fnDecl r → IsLRSpec wfuel fnDecl t
  | paren {t a inner b : Node} : t.kind = .parenthesizedExpression →
      t.children = [a, inner, b] → IsLRSpec wfuel fnDecl inner → IsLRSpec wfuel fnDecl t
  | ident {t : Node} {rvs : List RValue} : t.kind = .identifier →
      getRValuesAssignedToIdentifier wfuel fnDecl t = .ok rvs →
      (∀ rv ∈ rvs, rv ≠ .notRValueButFnParam) →
      (∀ e, RValue.expr e ∈ rvs → IsLRSpec wfuel fnDecl e) →
      IsLRSpec wfuel fnDecl t

/-- The recursive evaluator completes (no panic, no fuel exhaustion) on
every in-tree node whenever fewer than `fuel` arena nodes are uncached,
extending the memoization keys and never increasing the measure. -/
def RecSufficient (fnDecl : Node) (fuel : Nat) (rec : TaintSt → Node → TaintRes) : Prop :=
  ∀ st t, InTree t fnDecl → uncachedCount fnDecl st < fuel →
    ∃ b st2, rec st t = .ok b st2 ∧ KeysExtend st st2 ∧
      uncachedCount fnDecl st2 ≤ uncachedCount fnDecl st

/-- The invariant, as a property of a recursive evaluator. -/
def RecRootsOk (rec : TaintSt → Node → TaintRes) : Prop :=
  ∀ st t b st2, NoFalse st → rec st t = .ok b st2 →
    (b = true → st2.roots = st.roots ∧ NoFalse st2) ∧
    (b = false → ∃ r, st2.roots = addRoot st.roots r)

/-- A recursive evaluator never classifies a spec-LR value as non-LR. -/
def RecSound (wfuel : Nat) (fnDecl : Node) (rec : TaintSt → Node → TaintRes) : Prop :=
  ∀ st t b st2, NoFalse st → IsLRSpec wfuel fnDecl t → rec st t = .ok b st2 → b = true

/-! ### Basic lemmas -/

theorem Node.sizeOf_children_lt (i : NodeInfo) (cs : List Node) :
    sizeOf cs < sizeOf (Node.node i cs) := by
  simp only [Node.node.sizeOf_spec]
  omega

theorem Node.sizeOf_mem_lt {c : Node} {t : Node} (h : c ∈ t.children) :
    sizeOf c < sizeOf t := by
  cases t with
  | node i cs =>
    have h1 : sizeOf c < sizeOf cs := List.sizeOf_lt_of_mem h
    have h2 : sizeOf cs < sizeOf (Node.node i cs) := Node.sizeOf_children_lt i cs
    omega

theorem Node.sizeOf_mem_lt_cons {c : Node} {cs : List Node} :
    sizeOf c < sizeOf (c :: cs) := by
  simp only [List.cons.sizeOf_spec]
  omega

theorem Node.sizeOf_tail_lt_cons {c : Node} {cs : List Node} :
    sizeOf cs < sizeOf (c :: cs) := by
  simp only [List.cons.sizeOf_spec]
  omega

theorem allSubtrees_eq (t : Node) :
    allSubtrees t = t :: allSubtreesList t.children := by
  cases t with
  | node i cs => simp only [allSubtrees, Node.children]

theorem mem_allSubtreesList {t : Node} {cs : List Node} :
    t ∈ allSubtreesList cs ↔ ∃ c ∈ cs, t ∈ allSubtrees c := by
  induction cs with
  | nil => simp only [allSubtreesList]; simp
  | cons c cs ih => simp only [allSubtreesList]; simp [ih]

theorem InTree.refl (t : Node) : InTree t t := by
  rw [InTree, allSubtrees_eq]
  exact List.mem_cons_self _ _

theorem InTree.of_child {t c root : Node} (hc : c ∈ root.children)
    (ht : InTree t c) : InTree t root := by
  rw [InTree, allSubtrees_eq]
  exact List.mem_cons_of_mem _ (mem_allSubtreesList.mpr ⟨c, hc, ht⟩)

theorem InTree.elim {t root : Node} (h : InTree t root) :
    t = root ∨ ∃ c ∈ root.children, InTree t c := by
  rw [InTree, allSubtrees_eq] at h
  rcases List.mem_cons.mp h with h | h
  · exact Or.inl h
  · exact Or.inr (mem_allSubtreesList.mp h)

theorem size_pos (t : Node) : 0 < size t := by
  cases t with
  | node i cs => simp only [size]; omega

theorem sizeList_eq_sum (cs : List Node) : sizeList cs = (cs.map size).sum := by
  induction cs with
  | nil => simp only [sizeList]; simp
  | cons c cs ih => simp only [sizeList]; rw [ih]; simp

theorem size_le_sizeList_of_mem {c : Node} {cs : List Node} (h : c ∈ cs) :
    size c ≤ sizeList cs := by
  induction cs with
  | nil => cases h
  | cons d ds ih =>
    simp only [sizeList]
    rcases List.mem_cons.mp h with rfl | h
    · omega
    · have := ih h; omega

theorem size_lt_of_mem_children {c t : Node} (h : c ∈ t.children) :
    size c < size t := by
  cases t with
  | node i cs =>
    simp only [size]
    simp only [Node.children] at h
    have := size_le_sizeList_of_mem h
    omega

theorem size_le_of_inTree {t root : Node} (h : InTree t root) :
    size t ≤ size root := by
  rcases h.elim with rfl | ⟨c, hc, ht⟩
  · exact le_refl _
  · have ih := size_le_of_inTree ht
    have hlt := size_lt_of_mem_children hc
    omega
termination_by sizeOf root
decreasing_by exact Node.sizeOf_mem_lt hc

mutual

theorem length_allSubtrees_le_size (t : Node) :
    (allSubtrees t).length ≤ size t := by
  cases t with
  | node i cs =>
    simp only [allSubtrees, size, List.length_cons]
    have h := length_allSubtreesList_le_sizeList cs
    omega
termination_by sizeOf t
decreasing_by simp only [Node.node.sizeOf_spec]; omega

theorem length_allSubtreesList_le_sizeList (cs : List Node) :
    (allSubtreesList cs).length ≤ sizeList cs := by
  cases cs with
  | nil => simp only [allSubtreesList, sizeList]; simp
  | cons d ds =>
    simp only [allSubtreesList, sizeList]
    have h1 := length_allSubtrees_le_size d
    have h2 := length_allSubtreesList_le_sizeList ds
    simp only [List.length_append]
    omega
termination_by sizeOf cs
decreasing_by all_goals (simp only [List.cons.sizeOf_spec]; omega)

end

theorem InTree.trans {a b c : Node} (hab : InTree a b) (hbc : InTree b c) :
    InTree a c := by
  rcases hbc.elim with rfl | ⟨d, hd, hbd⟩
  · exact hab
  · exact InTree.of_child hd (InTree.trans hab hbd)
termination_by sizeOf c
decreasing_by exact Node.sizeOf_mem_lt hd

theorem InTree.child {c root : Node} (hc : c ∈ root.children) : InTree c root :=
  InTree.of_child hc (InTree.refl c)

/-- A `true` result of the bounded check certifies well-formedness of the
whole tree (the fuel-out result is `false`, so fuel cannot hide a node). -/
theorem wellFormed_of_bool {fuel : Nat} {root : Node}
    (h : wellFormedB fuel root = true) : WellFormed root := by
  induction fuel generalizing root with
  | zero => simp [wellFormedB] at h
  | succ fuel ih =>
    intro t ht
    rw [wellFormedB, Bool.and_eq_true, List.all_eq_true] at h
    rcases ht.elim with rfl | ⟨c, hc, htc⟩
    · exact h.1
    · exact ih (h.2 c hc) t htc

theorem WellFormed.inTree {root t : Node} (hw : WellFormed root)
    (ht : InTree t root) : WellFormed t :=
  fun s hs => hw s (hs.trans ht)

theorem wellFormedNode_spec {t : Node} (h : wellFormedNode t = true) :
    (t.kind = .templateSpan → t.children.length = 2) ∧
    (t.kind = .parenthesizedExpression → t.children.length = 3) ∧
    (t.kind = .binaryExpression → t.children.length = 3) ∧
    (t.kind = .variableDeclaration → t.declKind.isSome = true) := by
  rw [wellFormedNode] at h
  simp only [Bool.and_eq_true, Bool.or_eq_true, bne_iff_ne, ne_eq, beq_iff_eq] at h
  refine ⟨fun hk => ?_, fun hk => ?_, fun hk => ?_, fun hk => ?_⟩
  · rcases h.1.1.1 with h1 | h1
    · exact absurd hk h1
    · exact h1
  · rcases h.1.1.2 with h1 | h1
    · exact absurd hk h1
    · exact h1
  · rcases h.1.2 with h1 | h1
    · exact absurd hk h1
    · exact h1
  · rcases h.2 with h1 | h1
    · exact absurd hk h1
    · exact h1

/-- A list of exactly three elements, from its length. -/
theorem exists_three_of_length {l : List Node} (h : l.length = 3) :
    ∃ a b c, l = [a, b, c] := by
  match l, h with
  | [a, b, c], _ => exact ⟨a, b, c, rfl⟩

/-- A list of exactly two elements, from its length. -/
theorem exists_two_of_length {l : List Node} (h : l.length = 2) :
    ∃ a b, l = [a, b] := by
  match l, h with
  | [a, b], _ => exact ⟨a, b, rfl⟩

/-! ### Cache and measure lemmas -/

theorem lookupCache_setCache (cache : List (Nat × Bool)) (i : Nat) (b : Bool) (j : Nat) :
    lookupCache (setCache cache i b) j =
      if j = i then some b else lookupCache cache j := by
  simp only [setCache, lookupCache, List.find?]
  by_cases hj : j = i
  · subst hj; simp
  · have : (i == j) = false := by
      simp only [beq_eq_false_iff_ne, ne_eq]
      exact fun hij => hj hij.symm
    simp [this, hj]

theorem keysExtend_refl (st : TaintSt) : KeysExtend st st := fun _ h => h

theorem keysExtend_trans {st1 st2 st3 : TaintSt} (h12 : KeysExtend st1 st2)
    (h23 : KeysExtend st2 st3) : KeysExtend st1 st3 :=
  fun i h => h23 i (h12 i h)

theorem KeysExtend.setCache (st : TaintSt) (i : Nat) (b : Bool) (roots : List Node) :
    KeysExtend st ⟨setCache st.cache i b, roots⟩ := by
  intro j hj
  simp only [lookupCache_setCache]
  by_cases hij : j = i <;> simp [hij, hj]

theorem keysExtend_withRoots {st : TaintSt} (roots : List Node) :
    KeysExtend st ⟨st.cache, roots⟩ := fun _ h => h

/-- Filtering with a pointwise-weaker predicate keeps the count no larger. -/
theorem length_filter_le_of_imp {l : List Nat} {p q : Nat → Bool}
    (h : ∀ x, q x = true → p x = true) :
    (l.filter q).length ≤ (l.filter p).length := by
  induction l with
  | nil => simp
  | cons a l ih =>
    simp only [List.filter_cons]
    by_cases hq : q a = true
    · simp [hq, h a hq, List.length_cons]; omega
    · simp only [Bool.not_eq_true] at hq
      rw [hq]
      by_cases hp : p a = true
      · simp [hp, List.length_cons]; omega
      · simp only [Bool.not_eq_true] at hp
        rw [hp]
        exact ih

/-- Filtering with a strictly-smaller predicate (one member witness
flipping from `true` to `false`) strictly decreases the count. -/
theorem length_filter_lt_of_imp_of_mem {l : List Nat} {p q : Nat → Bool} {a : Nat}
    (h : ∀ x, q x = true → p x = true) (ha : a ∈ l)
    (hpa : p a = true) (hqa : q a = false) :
    (l.filter q).length < (l.filter p).length := by
  induction l with
  | nil => cases ha
  | cons x l ih =>
    simp only [List.filter_cons]
    rcases List.mem_cons.mp ha with rfl | hal
    · have hle := length_filter_le_of_imp (l := l) h
      simp [hpa, hqa]
      omega
    · by_cases hq : q x = true
      · have := ih hal
        simp [hq, h x hq]
        omega
      · simp only [Bool.not_eq_true] at hq
        by_cases hp : p x = true
        · have := ih hal
          simp [hq, hp]
          omega
        · simp only [Bool.not_eq_true] at hp
          have := ih hal
          simp [hq, hp]
          omega

theorem uncachedCount_le_of_keysExtend {fnDecl : Node} {st st2 : TaintSt}
    (h : KeysExtend st st2) :
    uncachedCount fnDecl st2 ≤ uncachedCount fnDecl st := by
  apply length_filter_le_of_imp
  intro i hi
  simp only [Option.isNone_iff_eq_none] at hi ⊢
  by_contra hne
  have : (lookupCache st.cache i).isSome = true := by
    cases hlk : lookupCache st.cache i
    · exact absurd hlk hne
    · rfl
  have h2 := h i this
  rw [hi] at h2
  simp at h2

theorem uncachedCount_lt_of_insert {fnDecl : Node} {st : TaintSt} {t : Node}
    (ht : InTree t fnDecl) (hmiss : lookupCache st.cache t.nid = none)
    (roots : List Node) :
    uncachedCount fnDecl ⟨setCache st.cache t.nid true, roots⟩ <
      uncachedCount fnDecl st := by
  apply length_filter_lt_of_imp_of_mem (a := t.nid)
  · intro i hi
    simp only [Option.isNone_iff_eq_none] at hi ⊢
    simp only [lookupCache_setCache] at hi
    by_cases hit : i = t.nid
    · simp [hit] at hi
    · simpa [hit] using hi
  · exact List.mem_map_of_mem Node.nid ht
  · simp [hmiss]
  · simp [lookupCache_setCache]

theorem uncachedCount_le_size (fnDecl : Node) :
    uncachedCount fnDecl ⟨[], []⟩ ≤ size fnDecl := by
  calc uncachedCount fnDecl ⟨[], []⟩
      ≤ ((allSubtrees fnDecl).map Node.nid).length := List.length_filter_le _ _
    _ = (allSubtrees fnDecl).length := List.length_map _ _
    _ ≤ size fnDecl := length_allSubtrees_le_size fnDecl

/-! ### NoFalse and addRoot lemmas -/

theorem NoFalse.lookup_true {st : TaintSt} (h : NoFalse st) {i : Nat} {b : Bool}
    (hb : lookupCache st.cache i = some b) : b = true := by
  cases b
  · exact absurd hb (h i)
  · rfl

theorem NoFalse.setCache_true {st : TaintSt} (h : NoFalse st) (i : Nat)
    (roots : List Node) : NoFalse ⟨setCache st.cache i true, roots⟩ := by
  intro j
  simp only [lookupCache_setCache]
  by_cases hij : j = i <;> simp [hij]
  exact h j

theorem noFalse_withRoots {st : TaintSt} (h : NoFalse st) (roots : List Node) :
    NoFalse ⟨st.cache, roots⟩ := h

theorem addRoot_nil (t : Node) : addRoot [] t = [t] := rfl

/-! ### Lemmas about r-value tracing -/

theorem InTree.ofMemChildren {c t root : Node} (hc : c ∈ t.children)
    (ht : InTree t root) : InTree c root :=
  (InTree.child hc).trans ht

/-- Under well-formedness, `reduceNodeToLeftmostLeaf` never panics. -/
theorem reduceNodeToLeftmostLeaf_ok {root : Node} (hw : WellFormed root) :
    ∀ (fuel : Nat) (t : Node), InTree t root →
      ∃ r, reduceNodeToLeftmostLeaf fuel t = .ok r := by
  intro fuel
  induction fuel with
  | zero => intro t _; exact ⟨t, rfl⟩
  | succ fuel ih =>
    intro t ht
    rw [reduceNodeToLeftmostLeaf]
    by_cases hk : t.kind = .parenthesizedExpression
    · rw [if_pos hk]
      have h3 := (wellFormedNode_spec (hw t ht)).2.1 hk
      obtain ⟨a, inner, b, habc⟩ := exists_three_of_length h3
      rw [habc]
      exact ih inner (InTree.ofMemChildren (habc ▸ (by simp)) ht)
    · rw [if_neg hk]
      cases hc : t.children with
      | nil => exact ⟨t, rfl⟩
      | cons c rest => exact ih c (InTree.ofMemChildren (hc ▸ List.mem_cons_self c rest) ht)

/-- Under well-formedness, `getLAndRValuesIfAssignment` never panics, and a
returned r-value is a child of the node. -/
theorem getLAndRValuesIfAssignment_ok {root : Node} (hw : WellFormed root)
    (fuel : Nat) {t : Node} (ht : InTree t root) :
    ∃ res, getLAndRValuesIfAssignment fuel t = .ok res ∧
      ∀ lhs r, res = some (lhs, r) → r ∈ t.children := by
  rw [getLAndRValuesIfAssignment]
  by_cases hk : t.kind = .binaryExpression
  · rw [if_pos hk]
    have h3 := (wellFormedNode_spec (hw t ht)).2.2.1 hk
    obtain ⟨l, op, r, habc⟩ := exists_three_of_length h3
    rw [habc]
    dsimp only
    by_cases hop : isAssignmentOperatorToken op = true
    · rw [if_pos hop]
      obtain ⟨lhs, hred⟩ := reduceNodeToLeftmostLeaf_ok hw fuel l
        (InTree.ofMemChildren (habc ▸ (by simp)) ht)
      rw [hred]
      dsimp only
      by_cases hid : lhs.kind = .identifier
      · rw [if_pos hid]
        refine ⟨some (lhs, r), rfl, ?_⟩
        rintro lhs2 r2 h
        injection h with h
        injection h with h1 h2
        subst h2
        simp
      · rw [if_neg hid]
        exact ⟨none, rfl, by rintro _ _ ⟨⟩⟩
    · rw [if_neg hop]
      exact ⟨none, rfl, by rintro _ _ ⟨⟩⟩
  · rw [if_neg hk]
    exact ⟨none, rfl, by rintro _ _ ⟨⟩⟩

/-- Under well-formedness, one occurrence check never panics, and every
yielded r-value expression is a node of the tree. -/
theorem rValuesFromOccurrence_ok {root : Node} (hw : WellFormed root)
    (fuel : Nat) (identifier : Node) {parent : Node} (hp : InTree parent root)
    (child : Node) :
    ∃ rvs, rValuesFromOccurrence fuel identifier parent child = .ok rvs ∧
      ∀ e, RValue.expr e ∈ rvs → InTree e root := by
  rw [rValuesFromOccurrence]
  by_cases hguard : (child.nid != identifier.nid && child.kind == NodeKind.identifier
      && child.symbol == identifier.symbol) = true
  · rw [if_pos hguard]
    by_cases hvd : parent.kind = .variableDeclaration
    · rw [if_pos hvd]
      have hdk := (wellFormedNode_spec (hw parent hp)).2.2.2 hvd
      rw [identifierUsageIsValid]
      cases hdkv : parent.declKind with
      | none => rw [hdkv] at hdk; simp at hdk
      | some dk =>
        have hbody : ∀ valid : Bool,
            ∃ rvs, ((if valid then
                match varDeclInitializer parent with
                | none => Except.ok []
                | some init => Except.ok [RValue.expr init]
              else Except.ok []) : Except Unit (List RValue)) = .ok rvs ∧
              ∀ e, RValue.expr e ∈ rvs → InTree e root := by
          intro valid
          cases valid with
          | false => exact ⟨[], by simp, by simp⟩
          | true =>
            cases hinit : varDeclInitializer parent with
            | none => exact ⟨[], by simp [hinit], by simp⟩
            | some init =>
              refine ⟨[.expr init], by simp [hinit], ?_⟩
              intro e he
              simp only [List.mem_singleton, RValue.expr.injEq] at he
              subst he
              exact InTree.ofMemChildren (List.getElem?_mem hinit) hp
        cases dk with
        | varKw => exact hbody true
        | letKw => exact hbody _
        | constKw => exact hbody _
    · rw [if_neg hvd]
      obtain ⟨res, hres, hmem⟩ := getLAndRValuesIfAssignment_ok hw fuel hp
      rw [hres]
      cases res with
      | some pair =>
        obtain ⟨lhs, r⟩ := pair
        refine ⟨[.expr r], rfl, ?_⟩
        intro e he
        simp only [List.mem_singleton, RValue.expr.injEq] at he
        subst he
        exact InTree.ofMemChildren (hmem lhs e rfl) hp
      | none =>
        by_cases hpd : parent.kind = .parameterDeclaration
        · rw [if_pos hpd]
          exact ⟨[.notRValueButFnParam], rfl, by simp⟩
        · rw [if_neg hpd]
          exact ⟨[], rfl, by simp⟩
  · rw [if_neg hguard]
    exact ⟨[], rfl, by simp⟩

/-- Under well-formedness, the scan of a child list never panics and only
yields in-tree expressions, provided the recursive scans do. -/
theorem rValuesWithinChildren_ok {root : Node} (hw : WellFormed root)
    (wfuel : Nat) (rec : Node → Except Unit (List RValue)) (identifier : Node)
    {parent : Node} (hp : InTree parent root) :
    ∀ l : List Node,
      (∀ c ∈ l, ∃ rvs, rec c = .ok rvs ∧ ∀ e, RValue.expr e ∈ rvs → InTree e root) →
      ∃ rvs, rValuesWithinChildren wfuel rec identifier parent l = .ok rvs ∧
        ∀ e, RValue.expr e ∈ rvs → InTree e root := by
  intro l
  induction l with
  | nil => exact fun _ => ⟨[], rfl, by simp⟩
  | cons c rest ih =>
    intro hrec
    obtain ⟨rvs1, h1, hin1⟩ := hrec c (List.mem_cons_self c rest)
    obtain ⟨rvs2, h2, hin2⟩ := rValuesFromOccurrence_ok hw wfuel identifier hp c
    obtain ⟨rvs3, h3, hin3⟩ := ih (fun d hd => hrec d (List.mem_cons_of_mem c hd))
    refine ⟨rvs1 ++ rvs2 ++ rvs3, ?_, ?_⟩
    · rw [rValuesWithinChildren, h1, h2, h3]
    · intro e he
      rcases List.mem_append.mp he with he | he
      · rcases List.mem_append.mp he with he | he
        · exact hin1 e he
        · exact hin2 e he
      · exact hin3 e he

/-- Under well-formedness, `getCorrespondingRValuesWithinNode` never panics
and only yields in-tree expressions. -/
theorem getCorrespondingRValuesWithinNode_ok {root : Node} (hw : WellFormed root)
    (wfuel : Nat) (identifier : Node) :
    ∀ (fuel : Nat) (t : Node), InTree t root →
      ∃ rvs, getCorrespondingRValuesWithinNode wfuel identifier fuel t = .ok rvs ∧
        ∀ e, RValue.expr e ∈ rvs → InTree e root := by
  intro fuel
  induction fuel with
  | zero => exact fun t _ => ⟨[], rfl, by simp⟩
  | succ fuel ih =>
    intro t ht
    rw [getCorrespondingRValuesWithinNode]
    exact rValuesWithinChildren_ok hw wfuel _ identifier ht t.children
      (fun c hc => ih c (InTree.ofMemChildren hc ht))

/-- Under well-formedness, the parameter scans never panic and only yield
in-tree expressions. -/
theorem rValuesForParameters_ok {root : Node} (hw : WellFormed root)
    (fuel : Nat) (identifier : Node) :
    ∀ l : List Node, (∀ p ∈ l, InTree p root) →
      ∃ rvs, rValuesForParameters fuel identifier l = .ok rvs ∧
        ∀ e, RValue.expr e ∈ rvs → InTree e root := by
  intro l
  induction l with
  | nil => exact fun _ => ⟨[], rfl, by simp⟩
  | cons p rest ih =>
    intro hmem
    obtain ⟨rvs1, h1, hin1⟩ := getCorrespondingRValuesWithinNode_ok hw fuel identifier
      fuel p (hmem p (List.mem_cons_self p rest))
    obtain ⟨rvs2, h2, hin2⟩ := ih (fun d hd => hmem d (List.mem_cons_of_mem p hd))
    refine ⟨rvs1 ++ rvs2, ?_, ?_⟩
    · rw [rValuesForParameters, h1, h2]
    · intro e he
      rcases List.mem_append.mp he with he | he
      · exact hin1 e he
      · exact hin2 e he

/-- Under well-formedness, `getRValuesAssignedToIdentifier` never panics
and only yields in-tree expressions. -/
theorem getRValuesAssignedToIdentifier_ok {fnDecl : Node} (hw : WellFormed fnDecl)
    (fuel : Nat) (identifier : Node) :
    ∃ rvs, getRValuesAssignedToIdentifier fuel fnDecl identifier = .ok rvs ∧
      ∀ e, RValue.expr e ∈ rvs → InTree e fnDecl := by
  obtain ⟨rvs1, h1, hin1⟩ := rValuesForParameters_ok hw fuel identifier
    (getParameters fnDecl)
    (fun p hp => InTree.child (List.mem_of_mem_filter hp))
  obtain ⟨rvs2, h2, hin2⟩ := getCorrespondingRValuesWithinNode_ok hw fuel identifier
    fuel fnDecl (InTree.refl fnDecl)
  refine ⟨rvs1 ++ rvs2, ?_, ?_⟩
  · rw [getRValuesAssignedToIdentifier, h1, h2]
  · intro e he
    rcases List.mem_append.mp he with he | he
    · exact hin1 e he
    · exact hin2 e he

/-! ### Fuel sufficiency of the memoized literal-reducibility recursion -/

theorem isLRMany_sufficient {fnDecl : Node} {fuel : Nat}
    {rec : TaintSt → Node → TaintRes} (hrec : RecSufficient fnDecl fuel rec) :
    ∀ (l : List Node) (st : TaintSt), (∀ x ∈ l, InTree x fnDecl) →
      uncachedCount fnDecl st < fuel →
      ∃ b st2, isLRMany rec st l = .ok b st2 ∧ KeysExtend st st2 ∧
        uncachedCount fnDecl st2 ≤ uncachedCount fnDecl st := by
  intro l
  induction l with
  | nil => exact fun st _ _ => ⟨true, st, rfl, keysExtend_refl st, le_refl _⟩
  | cons x rest ih =>
    intro st hmem hcnt
    obtain ⟨b, st2, hb, hk, hc⟩ := hrec st x (hmem x (List.mem_cons_self x rest)) hcnt
    cases b with
    | false => exact ⟨false, st2, by rw [isLRMany, hb], hk, hc⟩
    | true =>
      obtain ⟨b3, st3, hb3, hk3, hc3⟩ := ih st2
        (fun d hd => hmem d (List.mem_cons_of_mem x hd)) (by omega)
      refine ⟨b3, st3, ?_, keysExtend_trans hk hk3, le_trans hc3 hc⟩
      rw [isLRMany, hb]
      dsimp only
      exact hb3

theorem isLRSpans_sufficient {fnDecl : Node} {fuel : Nat}
    {rec : TaintSt → Node → TaintRes} (hrec : RecSufficient fnDecl fuel rec) :
    ∀ (l : List Node) (st : TaintSt),
      (∀ s ∈ l, InTree s fnDecl ∧ s.children.length = 2) →
      uncachedCount fnDecl st < fuel →
      ∃ b st2, isLRSpans rec st l = .ok b st2 ∧ KeysExtend st st2 ∧
        uncachedCount fnDecl st2 ≤ uncachedCount fnDecl st := by
  intro l
  induction l with
  | nil => exact fun st _ _ => ⟨true, st, rfl, keysExtend_refl st, le_refl _⟩
  | cons s rest ih =>
    intro st hmem hcnt
    obtain ⟨hs, hlen⟩ := hmem s (List.mem_cons_self s rest)
    obtain ⟨inner, tail, hchild⟩ := exists_two_of_length hlen
    have hinner : InTree inner fnDecl :=
      InTree.ofMemChildren (hchild ▸ (by simp)) hs
    obtain ⟨b, st2, hb, hk, hc⟩ := hrec st inner hinner hcnt
    cases b with
    | false =>
      refine ⟨false, st2, ?_, hk, hc⟩
      rw [isLRSpans, hchild]
      dsimp only
      rw [hb]
    | true =>
      obtain ⟨b3, st3, hb3, hk3, hc3⟩ := ih st2
        (fun d hd => hmem d (List.mem_cons_of_mem s hd)) (by omega)
      refine ⟨b3, st3, ?_, keysExtend_trans hk hk3, le_trans hc3 hc⟩
      rw [isLRSpans, hchild]
      dsimp only
      rw [hb]
      dsimp only
      exact hb3

theorem isLRRValues_sufficient {fnDecl : Node} {fuel : Nat}
    {rec : TaintSt → Node → TaintRes} (hrec : RecSufficient fnDecl fuel rec) :
    ∀ (l : List RValue) (st : TaintSt) (selfNode : Node),
      (∀ e, RValue.expr e ∈ l → InTree e fnDecl) →
      uncachedCount fnDecl st < fuel →
      ∃ b st2, isLRRValues rec st selfNode l = .ok b st2 ∧ KeysExtend st st2 ∧
        uncachedCount fnDecl st2 ≤ uncachedCount fnDecl st := by
  intro l
  induction l with
  | nil => exact fun st _ _ _ => ⟨true, st, rfl, keysExtend_refl st, le_refl _⟩
  | cons rv rest ih =>
    intro st selfNode hmem hcnt
    cases rv with
    | notRValueButFnParam =>
      exact ⟨false, ⟨st.cache, addRoot st.roots selfNode⟩, rfl,
        keysExtend_withRoots _, le_refl _⟩
    | expr e =>
      obtain ⟨b, st2, hb, hk, hc⟩ := hrec st e (hmem e (by simp)) hcnt
      cases b with
      | false => exact ⟨false, st2, by rw [isLRRValues, hb], hk, hc⟩
      | true =>
        obtain ⟨b3, st3, hb3, hk3, hc3⟩ := ih st2 selfNode
          (fun d hd => hmem d (by simp [hd])) (by omega)
        refine ⟨b3, st3, ?_, keysExtend_trans hk hk3, le_trans hc3 hc⟩
        rw [isLRRValues, hb]
        dsimp only
        exact hb3

theorem isLRWithoutResultCache_sufficient {fnDecl : Node} (hw : WellFormed fnDecl)
    {wfuel fuel : Nat} (hrec : RecSufficient fnDecl fuel (isLRFuel wfuel fnDecl fuel)) :
    ∀ st t, InTree t fnDecl → uncachedCount fnDecl st < fuel →
      ∃ b st2,
        isLRWithoutResultCache (isLRFuel wfuel fnDecl fuel) wfuel fnDecl st t = .ok b st2 ∧
        KeysExtend st st2 ∧
        uncachedCount fnDecl st2 ≤ uncachedCount fnDecl st := by
  intro st t htree hcnt
  rw [isLRWithoutResultCache]
  cases hk : t.kind with
  | stringLiteral => exact ⟨true, st, rfl, keysExtend_refl st, le_refl _⟩
  | numericLiteral => exact ⟨true, st, rfl, keysExtend_refl st, le_refl _⟩
  | templateExpression =>
    apply isLRSpans_sufficient hrec (getTemplateSpans t) st _ hcnt
    intro s hs
    have hsk : s.kind = .templateSpan := by
      have := List.of_mem_filter hs
      simpa using this
    have hsmem : s ∈ t.children := List.mem_of_mem_filter hs
    have hstree : InTree s fnDecl := InTree.ofMemChildren hsmem htree
    exact ⟨hstree, (wellFormedNode_spec (hw s hstree)).1 hsk⟩
  | identifier =>
    obtain ⟨rvs, heq, hin⟩ := getRValuesAssignedToIdentifier_ok hw wfuel t
    rw [heq]
    exact isLRRValues_sufficient hrec rvs st t hin hcnt
  | binaryExpression =>
    have h3 := (wellFormedNode_spec (hw t htree)).2.2.1 hk
    obtain ⟨l, op, r, habc⟩ := exists_three_of_length h3
    rw [habc]
    dsimp only
    apply isLRMany_sufficient hrec [l, r] st _ hcnt
    intro x hx
    rcases List.mem_cons.mp hx with rfl | hx
    · exact InTree.ofMemChildren (habc ▸ (by simp)) htree
    · rcases List.mem_cons.mp hx with rfl | hx
      · exact InTree.ofMemChildren (habc ▸ (by simp)) htree
      · cases hx
  | parenthesizedExpression =>
    have h3 := (wellFormedNode_spec (hw t htree)).2.1 hk
    obtain ⟨a, inner, b, habc⟩ := exists_three_of_length h3
    rw [habc]
    dsimp only
    exact hrec st inner (InTree.ofMemChildren (habc ▸ (by simp)) htree) hcnt
  | templateSpan =>
    exact ⟨false, ⟨st.cache, addRoot st.roots t⟩, rfl, keysExtend_withRoots _, le_refl _⟩
  | callExpression =>
    exact ⟨false, ⟨st.cache, addRoot st.roots t⟩, rfl, keysExtend_withRoots _, le_refl _⟩
  | newExpression =>
    exact ⟨false, ⟨st.cache, addRoot st.roots t⟩, rfl, keysExtend_withRoots _, le_refl _⟩
  | awaitExpression =>
    exact ⟨false, ⟨st.cache, addRoot st.roots t⟩, rfl, keysExtend_withRoots _, le_refl _⟩
  | thisExpression =>
    exact ⟨false, ⟨st.cache, addRoot st.roots t⟩, rfl, keysExtend_withRoots _, le_refl _⟩
  | block =>
    exact ⟨false, ⟨st.cache, addRoot st.roots t⟩, rfl, keysExtend_withRoots _, le_refl _⟩
  | variableDeclaration =>
    exact ⟨false, ⟨st.cache, addRoot st.roots t⟩, rfl, keysExtend_withRoots _, le_refl _⟩
  | parameterDeclaration =>
    exact ⟨false, ⟨st.cache, addRoot st.roots t⟩, rfl, keysExtend_withRoots _, le_refl _⟩
  | functionDeclaration =>
    exact ⟨false, ⟨st.cache, addRoot st.roots t⟩, rfl, keysExtend_withRoots _, le_refl _⟩
  | methodDeclaration =>
    exact ⟨false, ⟨st.cache, addRoot st.roots t⟩, rfl, keysExtend_withRoots _, le_refl _⟩
  | constructorDeclaration =>
    exact ⟨false, ⟨st.cache, addRoot st.roots t⟩, rfl, keysExtend_withRoots _, le_refl _⟩
  | classDeclaration =>
    exact ⟨false, ⟨st.cache, addRoot st.roots t⟩, rfl, keysExtend_withRoots _, le_refl _⟩
  | decorator =>
    exact ⟨false, ⟨st.cache, addRoot st.roots t⟩, rfl, keysExtend_withRoots _, le_refl _⟩
  | token k =>
    exact ⟨false, ⟨st.cache, addRoot st.roots t⟩, rfl, keysExtend_withRoots _, le_refl _⟩
  | other =>
    exact ⟨false, ⟨st.cache, addRoot st.roots t⟩, rfl, keysExtend_withRoots _, le_refl _⟩

/-- Fuel sufficiency: with fewer than `fuel` uncached arena nodes (in
particular with fuel above the tree size and a fresh memo map), the
memoized recursion completes.  This is the embedding's counterpart of the
source's termination argument: each level of recursion caches one more
node, so the recursion depth is bounded by the number of arena nodes. -/
theorem isLRFuel_sufficient {fnDecl : Node} (hw : WellFormed fnDecl) (wfuel : Nat) :
    ∀ fuel, RecSufficient fnDecl fuel (isLRFuel wfuel fnDecl fuel) := by
  intro fuel
  induction fuel with
  | zero => intro st t _ hcnt; omega
  | succ fuel ih =>
    intro st t htree hcnt
    rw [isLRFuel]
    cases hhit : lookupCache st.cache t.nid with
    | some b => exact ⟨b, st, rfl, keysExtend_refl st, le_refl _⟩
    | none =>
      have hcnt1 : uncachedCount fnDecl ⟨setCache st.cache t.nid true, st.roots⟩ < fuel := by
        have := uncachedCount_lt_of_insert htree hhit st.roots
        omega
      obtain ⟨b, st2, hb, hk2, hc2⟩ :=
        isLRWithoutResultCache_sufficient hw ih
          ⟨setCache st.cache t.nid true, st.roots⟩ t htree hcnt1
      rw [hb]
      refine ⟨b, ⟨setCache st2.cache t.nid b, st2.roots⟩, rfl, ?_, ?_⟩
      · exact keysExtend_trans
          (keysExtend_trans (KeysExtend.setCache st t.nid true st.roots) hk2)
          (KeysExtend.setCache st2 t.nid b st2.roots)
      · have h3 : uncachedCount fnDecl ⟨setCache st2.cache t.nid b, st2.roots⟩ ≤
            uncachedCount fnDecl st2 :=
          uncachedCount_le_of_keysExtend (KeysExtend.setCache st2 t.nid b st2.roots)
        have h4 := uncachedCount_lt_of_insert htree hhit st.roots
        omega

/-! ### The root-problem-node invariant

Along a query whose memo map holds no `false` entry, an evaluation that
returns `true` leaves the root-problem-node set unchanged (and keeps the
map free of `false` entries), while an evaluation that returns `false`
adds exactly one root problem node.  Since the top-level query starts with
an empty set and a failure propagates straight to the top, a failed query
ends with exactly one root problem node. -/

theorem isLRMany_rootsOk {rec : TaintSt → Node → TaintRes} (hrec : RecRootsOk rec) :
    ∀ (l : List Node) (st : TaintSt) (b : Bool) (st2 : TaintSt), NoFalse st →
      isLRMany rec st l = .ok b st2 →
      (b = true → st2.roots = st.roots ∧ NoFalse st2) ∧
      (b = false → ∃ r, st2.roots = addRoot st.roots r) := by
  intro l
  induction l with
  | nil =>
    intro st b st2 hnf heq
    rw [isLRMany] at heq
    injection heq with hb hst
    subst hb; subst hst
    exact ⟨fun _ => ⟨rfl, hnf⟩, by simp⟩
  | cons x rest ih =>
    intro st b st2 hnf heq
    rw [isLRMany] at heq
    cases hx : rec st x with
    | err => rw [hx] at heq; simp at heq
    | ok bx stx =>
      rw [hx] at heq
      cases bx with
      | true =>
        dsimp only at heq
        have hx1 := (hrec st x true stx hnf hx).1 rfl
        have hrest := ih stx b st2 hx1.2 heq
        constructor
        · intro hb
          have := hrest.1 hb
          exact ⟨this.1.trans hx1.1, this.2⟩
        · intro hb
          obtain ⟨r, hr⟩ := hrest.2 hb
          exact ⟨r, by rw [hr, hx1.1]⟩
      | false =>
        dsimp only at heq
        injection heq with hb hst
        subst hb; subst hst
        exact ⟨by simp, fun _ => (hrec st x false _ hnf hx).2 rfl⟩

theorem isLRSpans_rootsOk {rec : TaintSt → Node → TaintRes} (hrec : RecRootsOk rec) :
    ∀ (l : List Node) (st : TaintSt) (b : Bool) (st2 : TaintSt), NoFalse st →
      isLRSpans rec st l = .ok b st2 →
      (b = true → st2.roots = st.roots ∧ NoFalse st2) ∧
      (b = false → ∃ r, st2.roots = addRoot st.roots r) := by
  intro l
  induction l with
  | nil =>
    intro st b st2 hnf heq
    rw [isLRSpans] at heq
    injection heq with hb hst
    subst hb; subst hst
    exact ⟨fun _ => ⟨rfl, hnf⟩, by simp⟩
  | cons s rest ih =>
    intro st b st2 hnf heq
    rw [isLRSpans] at heq
    rcases hch : s.children with _ | ⟨inner, _ | ⟨tail, _ | _⟩⟩ <;> rw [hch] at heq
    · simp at heq
    · simp at heq
    · dsimp only at heq
      cases hx : rec st inner with
      | err => rw [hx] at heq; simp at heq
      | ok bx stx =>
        rw [hx] at heq
        cases bx with
        | true =>
          dsimp only at heq
          have hx1 := (hrec st inner true stx hnf hx).1 rfl
          have hrest := ih stx b st2 hx1.2 heq
          constructor
          · intro hb
            have := hrest.1 hb
            exact ⟨this.1.trans hx1.1, this.2⟩
          · intro hb
            obtain ⟨r, hr⟩ := hrest.2 hb
            exact ⟨r, by rw [hr, hx1.1]⟩
        | false =>
          dsimp only at heq
          injection heq with hb hst
          subst hb; subst hst
          exact ⟨by simp, fun _ => (hrec st inner false _ hnf hx).2 rfl⟩
    · simp at heq

theorem isLRRValues_rootsOk {rec : TaintSt → Node → TaintRes} (hrec : RecRootsOk rec) :
    ∀ (l : List RValue) (st : TaintSt) (selfNode : Node) (b : Bool) (st2 : TaintSt),
      NoFalse st →
      isLRRValues rec st selfNode l = .ok b st2 →
      (b = true → st2.roots = st.roots ∧ NoFalse st2) ∧
      (b = false → ∃ r, st2.roots = addRoot st.roots r) := by
  intro l
  induction l with
  | nil =>
    intro st selfNode b st2 hnf heq
    rw [isLRRValues] at heq
    injection heq with hb hst
    subst hb; subst hst
    exact ⟨fun _ => ⟨rfl, hnf⟩, by simp⟩
  | cons rv rest ih =>
    intro st selfNode b st2 hnf heq
    cases rv with
    | notRValueButFnParam =>
      rw [isLRRValues] at heq
      injection heq with hb hst
      subst hb; subst hst
      exact ⟨by simp, fun _ => ⟨selfNode, rfl⟩⟩
    | expr e =>
      rw [isLRRValues] at heq
      cases hx : rec st e with
      | err => rw [hx] at heq; simp at heq
      | ok bx stx =>
        rw [hx] at heq
        cases bx with
        | true =>
          dsimp only at heq
          have hx1 := (hrec st e true stx hnf hx).1 rfl
          have hrest := ih stx selfNode b st2 hx1.2 heq
          constructor
          · intro hb
            have := hrest.1 hb
            exact ⟨this.1.trans hx1.1, this.2⟩
          · intro hb
            obtain ⟨r, hr⟩ := hrest.2 hb
            exact ⟨r, by rw [hr, hx1.1]⟩
        | false =>
          dsimp only at heq
          injection heq with hb hst
          subst hb; subst hst
          exact ⟨by simp, fun _ => (hrec st e false _ hnf hx).2 rfl⟩

theorem isLRWithoutResultCache_rootsOk {wfuel : Nat} {fnDecl : Node}
    {rec : TaintSt → Node → TaintRes} (hrec : RecRootsOk rec) :
    ∀ st t b st2, NoFalse st →
      isLRWithoutResultCache rec wfuel fnDecl st t = .ok b st2 →
      (b = true → st2.roots = st.roots ∧ NoFalse st2) ∧
      (b = false → ∃ r, st2.roots = addRoot st.roots r) := by
  intro st t b st2 hnf heq
  rw [isLRWithoutResultCache] at heq
  cases hk : t.kind <;> rw [hk] at heq <;> dsimp only at heq
  case stringLiteral =>
    injection heq with hb hst
    subst hb; subst hst
    exact ⟨fun _ => ⟨rfl, hnf⟩, by simp⟩
  case numericLiteral =>
    injection heq with hb hst
    subst hb; subst hst
    exact ⟨fun _ => ⟨rfl, hnf⟩, by simp⟩
  case templateExpression => exact isLRSpans_rootsOk hrec _ st b st2 hnf heq
  case identifier =>
    cases hrv : getRValuesAssignedToIdentifier wfuel fnDecl t with
    | error e => rw [hrv] at heq; simp at heq
    | ok rvs =>
      rw [hrv] at heq
      exact isLRRValues_rootsOk hrec rvs st t b st2 hnf heq
  case binaryExpression =>
    rcases hch : t.children with _ | ⟨l, _ | ⟨op, _ | ⟨r, _ | _⟩⟩⟩ <;> rw [hch] at heq
    · simp at heq
    · simp at heq
    · simp at heq
    · dsimp only at heq
      exact isLRMany_rootsOk hrec [l, r] st b st2 hnf heq
    · simp at heq
  case parenthesizedExpression =>
    rcases hch : t.children with _ | ⟨a, _ | ⟨inner, _ | ⟨c, _ | _⟩⟩⟩ <;> rw [hch] at heq
    · simp at heq
    · simp at heq
    · simp at heq
    · dsimp only at heq
      exact hrec st inner b st2 hnf heq
    · simp at heq
  all_goals {
    injection heq with hb hst
    subst hb; subst hst
    exact ⟨by simp, fun _ => ⟨t, rfl⟩⟩ }

theorem isLRFuel_rootsOk (wfuel : Nat) (fnDecl : Node) :
    ∀ fuel, RecRootsOk (isLRFuel wfuel fnDecl fuel) := by
  intro fuel
  induction fuel with
  | zero =>
    intro st t b st2 hnf heq
    rw [isLRFuel] at heq
    simp at heq
  | succ fuel ih =>
    intro st t b st2 hnf heq
    rw [isLRFuel] at heq
    cases hhit : lookupCache st.cache t.nid with
    | some bc =>
      rw [hhit] at heq
      dsimp only at heq
      injection heq with hb hst
      subst hb; subst hst
      have hbc := hnf.lookup_true hhit
      subst hbc
      exact ⟨fun _ => ⟨rfl, hnf⟩, by simp⟩
    | none =>
      rw [hhit] at heq
      dsimp only at heq
      cases hwrc : isLRWithoutResultCache (isLRFuel wfuel fnDecl fuel) wfuel fnDecl
          ⟨setCache st.cache t.nid true, st.roots⟩ t with
      | err => rw [hwrc] at heq; simp at heq
      | ok bw stw =>
        rw [hwrc] at heq
        dsimp only at heq
        injection heq with hb hst
        subst hb; subst hst
        have hst1nf : NoFalse ⟨setCache st.cache t.nid true, st.roots⟩ :=
          hnf.setCache_true t.nid st.roots
        have hw := isLRWithoutResultCache_rootsOk ih
          ⟨setCache st.cache t.nid true, st.roots⟩ t bw stw hst1nf hwrc
        constructor
        · intro hb
          subst hb
          have := hw.1 rfl
          exact ⟨this.1, this.2.setCache_true t.nid stw.roots⟩
        · intro hb
          subst hb
          exact hw.2 rfl

/-! ### Soundness of the LR grammar against the evaluator -/

theorem isLRMany_sound {wfuel : Nat} {fnDecl : Node} {rec : TaintSt → Node → TaintRes}
    (hsound : RecSound wfuel fnDecl rec) (hroots : RecRootsOk rec) :
    ∀ (l : List Node) (st : TaintSt) (b : Bool) (st2 : TaintSt), NoFalse st →
      (∀ x ∈ l, IsLRSpec wfuel fnDecl x) →
      isLRMany rec st l = .ok b st2 → b = true := by
  intro l
  induction l with
  | nil =>
    intro st b st2 _ _ heq
    rw [isLRMany] at heq
    injection heq with hb _
    exact hb.symm
  | cons x rest ih =>
    intro st b st2 hnf hspec heq
    rw [isLRMany] at heq
    cases hx : rec st x with
    | err => rw [hx] at heq; simp at heq
    | ok bx stx =>
      rw [hx] at heq
      have hbx := hsound st x bx stx hnf (hspec x (by simp)) hx
      subst hbx
      dsimp only at heq
      have hnf2 := ((hroots st x true stx hnf hx).1 rfl).2
      exact ih stx b st2 hnf2 (fun d hd => hspec d (by simp [hd])) heq

theorem isLRSpans_sound {wfuel : Nat} {fnDecl : Node} {rec : TaintSt → Node → TaintRes}
    (hsound : RecSound wfuel fnDecl rec) (hroots : RecRootsOk rec) :
    ∀ (l : List Node) (st : TaintSt) (b : Bool) (st2 : TaintSt), NoFalse st →
      (∀ s ∈ l, s.children.length = 2) →
      (∀ s, s ∈ l → ∀ inner, s.children.head? = some inner → IsLRSpec wfuel fnDecl inner) →
      isLRSpans rec st l = .ok b st2 → b = true := by
  intro l
  induction l with
  | nil =>
    intro st b st2 _ _ _ heq
    rw [isLRSpans] at heq
    injection heq with hb _
    exact hb.symm
  | cons s rest ih =>
    intro st b st2 hnf hlen hspec heq
    rw [isLRSpans] at heq
    obtain ⟨inner, tail, hch⟩ := exists_two_of_length (hlen s (by simp))
    rw [hch] at heq
    dsimp only at heq
    cases hx : rec st inner with
    | err => rw [hx] at heq; simp at heq
    | ok bx stx =>
      rw [hx] at heq
      have hspecInner : IsLRSpec wfuel fnDecl inner :=
        hspec s (by simp) inner (by rw [hch]; rfl)
      have hbx := hsound st inner bx stx hnf hspecInner hx
      subst hbx
      dsimp only at heq
      have hnf2 := ((hroots st inner true stx hnf hx).1 rfl).2
      exact ih stx b st2 hnf2 (fun d hd => hlen d (by simp [hd]))
        (fun d hd => hspec d (by simp [hd])) heq

theorem isLRRValues_sound {wfuel : Nat} {fnDecl : Node} {rec : TaintSt → Node → TaintRes}
    (hsound : RecSound wfuel fnDecl rec) (hroots : RecRootsOk rec) :
    ∀ (l : List RValue) (st : TaintSt) (selfNode : Node) (b : Bool) (st2 : TaintSt),
      NoFalse st →
      (∀ rv ∈ l, rv ≠ .notRValueButFnParam) →
      (∀ e, RValue.expr e ∈ l → IsLRSpec wfuel fnDecl e) →
      isLRRValues rec st selfNode l = .ok b st2 → b = true := by
  intro l
  induction l with
  | nil =>
    intro st selfNode b st2 _ _ _ heq
    rw [isLRRValues] at heq
    injection heq with hb _
    exact hb.symm
  | cons rv rest ih =>
    intro st selfNode b st2 hnf hnp hspec heq
    cases rv with
    | notRValueButFnParam => exact absurd rfl (hnp _ (by simp))
    | expr e =>
      rw [isLRRValues] at heq
      cases hx : rec st e with
      | err => rw [hx] at heq; simp at heq
      | ok bx stx =>
        rw [hx] at heq
        have hbx := hsound st e bx stx hnf (hspec e (by simp)) hx
        subst hbx
        dsimp only at heq
        have hnf2 := ((hroots st e true stx hnf hx).1 rfl).2
        exact ih stx selfNode b st2 hnf2 (fun d hd => hnp d (by simp [hd]))
          (fun d hd => hspec d (by simp [hd])) heq

theorem isLRWithoutResultCache_sound {wfuel : Nat} {fnDecl : Node}
    {rec : TaintSt → Node → TaintRes}
    (hsound : RecSound wfuel fnDecl rec) (hroots : RecRootsOk rec) :
    ∀ st t b st2, NoFalse st → IsLRSpec wfuel fnDecl t →
      isLRWithoutResultCache rec wfuel fnDecl st t = .ok b st2 → b = true := by
  intro st t b st2 hnf hspec heq
  rw [isLRWithoutResultCache] at heq
  cases hspec with
  | strLit hk =>
    rw [hk] at heq
    dsimp only at heq
    injection heq with hb _
    exact hb.symm
  | numLit hk =>
    rw [hk] at heq
    dsimp only at heq
    injection heq with hb _
    exact hb.symm
  | template hk hlen hinner =>
    rw [hk] at heq
    dsimp only at heq
    exact isLRSpans_sound hsound hroots _ st b st2 hnf hlen hinner heq
  | concat hk hch hop hl hr =>
    rw [hk] at heq
    dsimp only at heq
    rw [hch] at heq
    dsimp only at heq
    apply isLRMany_sound hsound hroots _ st b st2 hnf _ heq
    intro x hx
    rcases List.mem_cons.mp hx with rfl | hx
    · exact hl
    · rcases List.mem_cons.mp hx with rfl | hx
      · exact hr
      · cases hx
  | paren hk hch hinner =>
    rw [hk] at heq
    dsimp only at heq
    rw [hch] at heq
    dsimp only at heq
    exact hsound st _ b st2 hnf hinner heq
  | ident hk hrvs hnp hspecs =>
    rw [hk] at heq
    dsimp only at heq
    rw [hrvs] at heq
    exact isLRRValues_sound hsound hroots _ st t b st2 hnf hnp hspecs heq

/-- Soundness: the memoized evaluation never classifies a spec-LR value as
non-literal-reducible (starting from a memo map with no `false` entry). -/
theorem isLRFuel_sound (wfuel : Nat) (fnDecl : Node) :
    ∀ fuel, RecSound wfuel fnDecl (isLRFuel wfuel fnDecl fuel) := by
  intro fuel
  induction fuel with
  | zero =>
    intro st t b st2 _ _ heq
    rw [isLRFuel] at heq
    simp at heq
  | succ fuel ih =>
    intro st t b st2 hnf hspec heq
    rw [isLRFuel] at heq
    cases hhit : lookupCache st.cache t.nid with
    | some bc =>
      rw [hhit] at heq
      dsimp only at heq
      injection heq with hb _
      subst hb
      exact hnf.lookup_true hhit
    | none =>
      rw [hhit] at heq
      dsimp only at heq
      cases hwrc : isLRWithoutResultCache (isLRFuel wfuel fnDecl fuel) wfuel fnDecl
          ⟨setCache st.cache t.nid true, st.roots⟩ t with
      | err => rw [hwrc] at heq; simp at heq
      | ok bw stw =>
        rw [hwrc] at heq
        dsimp only at heq
        injection heq with hb _
        subst hb
        exact isLRWithoutResultCache_sound ih (isLRFuel_rootsOk wfuel fnDecl fuel)
          ⟨setCache st.cache t.nid true, st.roots⟩ t bw stw
          (hnf.setCache_true t.nid st.roots) hspec hwrc

/-! ### Traversal lemmas: exception propagation and the scope stack -/

/-- A thrown checker exception is never caught: on an aborted state the
walker does nothing, so nothing after the throwing node is analyzed. -/
theorem analyzeFrame_aborted (wfuel : Nat) :
    ∀ (fuel : Nat) (fnDecl : Node) (st : TravSt) (t : Node), st.aborted = true →
      analyzeFrame wfuel fuel fnDecl st t = st := by
  intro fuel fnDecl st t hab
  cases fuel with
  | zero => rw [analyzeFrame]
  | succ fuel => rw [analyzeFrame, if_pos hab]

theorem analyzeFrameList_of_aborted {recFrame : TravSt → Node → TravSt}
    (habs : ∀ st c, st.aborted = true → recFrame st c = st) :
    ∀ (l : List Node) (st : TravSt), st.aborted = true →
      analyzeFrameList recFrame st l = st := by
  intro l
  induction l with
  | nil => intro st _; rfl
  | cons c rest ih =>
    intro st hab
    rw [analyzeFrameList, habs st c hab]
    exact ih st hab

theorem runErrorCheckers_stack (node : Node) :
    ∀ (l : List (Except Unit (Option CheckerResponse))) (st : TravSt),
      (runErrorCheckers node st l).stack = st.stack := by
  intro l
  induction l with
  | nil => intro st; rfl
  | cons r rest ih =>
    intro st
    rw [runErrorCheckers.eq_def]
    dsimp only
    by_cases hab : st.aborted
    · rw [if_pos hab]
    · rw [if_neg hab]
      cases r with
      | error e => rfl
      | ok resp =>
        cases resp with
        | none => exact ih st
        | some resp => exact ih _

/-- The wrapper of `analyzeFunction` leaves the caller's stack untouched
(the scope stack is a local of each invocation). -/
theorem analyzeFunctionWith_stack (recFrameFor : Node → TravSt → Node → TravSt)
    (st : TravSt) (fnDecl : Node) :
    (analyzeFunctionWith recFrameFor st fnDecl).stack = st.stack := by
  rw [analyzeFunctionWith]
  by_cases hab : st.aborted
  · rw [if_pos hab]
  · rw [if_neg hab]
    cases getBody fnDecl with
    | none => rfl
    | some body => rfl

theorem analyzeFunctionListWith_stack (recFrameFor : Node → TravSt → Node → TravSt) :
    ∀ (l : List Node) (st : TravSt),
      (analyzeFunctionListWith recFrameFor st l).stack = st.stack := by
  intro l
  induction l with
  | nil => intro st; rfl
  | cons f rest ih =>
    intro st
    rw [analyzeFunctionListWith, ih, analyzeFunctionWith_stack]

theorem analyzeClassWith_stack (recFrameFor : Node → TravSt → Node → TravSt)
    (st : TravSt) (theClass : Node) :
    (analyzeClassWith recFrameFor st theClass).stack = st.stack := by
  rw [analyzeClassWith, analyzeFunctionListWith_stack]

theorem addLocal_stack_shape (st : TravSt) (s : Nat) :
    (addLocal st s).stack.length = st.stack.length ∧
      (addLocal st s).stack.tail = st.stack.tail := by
  rw [addLocal]
  cases hst : st.stack with
  | nil => simp [hst]
  | cons f rest => simp [hst]

theorem analyzeFrameList_stack {recFrame : TravSt → Node → TravSt}
    (habs : ∀ st c, st.aborted = true → recFrame st c = st)
    (hstep : ∀ st c, (recFrame st c).aborted = false →
      (recFrame st c).stack.length = st.stack.length ∧
      (recFrame st c).stack.tail = st.stack.tail) :
    ∀ (l : List Node) (st : TravSt),
      (analyzeFrameList recFrame st l).aborted = false →
      (analyzeFrameList recFrame st l).stack.length = st.stack.length ∧
      (analyzeFrameList recFrame st l).stack.tail = st.stack.tail := by
  intro l
  induction l with
  | nil => exact fun st _ => ⟨rfl, rfl⟩
  | cons c rest ih =>
    intro st hres
    rw [analyzeFrameList] at hres ⊢
    by_cases hab1 : (recFrame st c).aborted
    · rw [analyzeFrameList_of_aborted habs rest _ hab1] at hres
      exact absurd hres (by rw [hab1]; simp)
    · have h1 := hstep st c (by simpa using hab1)
      have h2 := ih (recFrame st c) hres
      exact ⟨h2.1.trans h1.1, h2.2.trans h1.2⟩

/-- The scope frames form a stack: one traversal step never touches the
frames below the top (and preserves the stack height), and traversing a
block restores the stack exactly — the pushed frame is popped.  (When the
result is aborted an exception is propagating; the block was never left
normally.) -/
theorem analyzeFrame_stack (wfuel : Nat) :
    ∀ (fuel : Nat) (fnDecl : Node) (st : TravSt) (t : Node),
      ((analyzeFrame wfuel fuel fnDecl st t).aborted = false →
        (analyzeFrame wfuel fuel fnDecl st t).stack.length = st.stack.length ∧
        (analyzeFrame wfuel fuel fnDecl st t).stack.tail = st.stack.tail) ∧
      (t.kind = .block → (analyzeFrame wfuel fuel fnDecl st t).aborted = false →
        (analyzeFrame wfuel fuel fnDecl st t).stack = st.stack) := by
  intro fuel
  induction fuel with
  | zero =>
    intro fnDecl st t
    rw [analyzeFrame]
    exact ⟨fun _ => ⟨rfl, rfl⟩, fun _ _ => rfl⟩
  | succ fuel ih =>
    intro fnDecl st t
    have habs : ∀ st2 c, st2.aborted = true →
        analyzeFrame wfuel fuel fnDecl st2 c = st2 :=
      fun st2 c h => analyzeFrame_aborted wfuel fuel fnDecl st2 c h
    have hstep : ∀ st2 c, (analyzeFrame wfuel fuel fnDecl st2 c).aborted = false →
        (analyzeFrame wfuel fuel fnDecl st2 c).stack.length = st2.stack.length ∧
        (analyzeFrame wfuel fuel fnDecl st2 c).stack.tail = st2.stack.tail :=
      fun st2 c => (ih fnDecl st2 c).1
    rw [analyzeFrame]
    by_cases h1 : st.aborted
    · rw [if_pos h1]
      exact ⟨fun _ => ⟨rfl, rfl⟩, fun _ _ => rfl⟩
    · rw [if_neg h1]
      by_cases h2 : t.kind = .classDeclaration
      · rw [if_pos h2]
        have hst := analyzeClassWith_stack (analyzeFrame wfuel fuel) st t
        exact ⟨fun _ => ⟨by rw [hst], by rw [hst]⟩, fun _ _ => hst⟩
      · rw [if_neg h2]
        by_cases h3 : t.kind = .functionDeclaration
        · rw [if_pos h3]
          have hst := analyzeFunctionWith_stack (analyzeFrame wfuel fuel) st t
          exact ⟨fun _ => ⟨by rw [hst], by rw [hst]⟩, fun _ _ => hst⟩
        · rw [if_neg h3]
          by_cases h4 : t.kind = .block
          · rw [if_pos h4]
            by_cases hab2 :
                (analyzeFrameList (analyzeFrame wfuel fuel fnDecl) (pushFrame st)
                  t.children).aborted
            · rw [if_pos hab2]
              constructor
              · intro hres
                exact absurd hres (by rw [hab2]; simp)
              · intro _ hres
                exact absurd hres (by rw [hab2]; simp)
            · rw [if_neg hab2]
              have hl := analyzeFrameList_stack habs hstep t.children (pushFrame st)
                (by simpa using hab2)
              have hpop : (popFrame (analyzeFrameList (analyzeFrame wfuel fuel fnDecl)
                  (pushFrame st) t.children)).stack = st.stack := by
                rw [popFrame]
                cases hres : (analyzeFrameList (analyzeFrame wfuel fuel fnDecl)
                    (pushFrame st) t.children).stack with
                | nil =>
                  have := hl.1
                  rw [hres] at this
                  simp [pushFrame] at this
                | cons f rest =>
                  have := hl.2
                  rw [hres] at this
                  simpa [pushFrame] using this
              exact ⟨fun _ => ⟨by rw [hpop], by rw [hpop]⟩, fun _ _ => hpop⟩
          · rw [if_neg h4]
            by_cases h5 : t.kind = .variableDeclaration
            · rw [if_pos h5]
              constructor
              · cases hsym : t.symbol with
                | none =>
                  intro hres
                  exact analyzeFrameList_stack habs hstep t.children st hres
                | some s =>
                  intro hres
                  have hadd := addLocal_stack_shape st s
                  have := analyzeFrameList_stack habs hstep t.children (addLocal st s) hres
                  exact ⟨this.1.trans hadd.1, this.2.trans hadd.2⟩
              · intro hb
                rw [h5] at hb
                cases hb
            · rw [if_neg h5]
              constructor
              · intro hres
                by_cases hab3 : (runErrorCheckers t st
                    (checkersResponses wfuel t fnDecl (isLocalIn st.stack))).aborted
                · rw [if_pos hab3] at hres ⊢
                  exact ⟨by rw [runErrorCheckers_stack], by rw [runErrorCheckers_stack]⟩
                · rw [if_neg hab3] at hres ⊢
                  have hrun := runErrorCheckers_stack t
                    (checkersResponses wfuel t fnDecl (isLocalIn st.stack)) st
                  have := analyzeFrameList_stack habs hstep t.children _ hres
                  exact ⟨this.1.trans (by rw [hrun]), this.2.trans (by rw [hrun])⟩
              · intro hb
                exact absurd hb h4

/-! ### Locality growth: only variable declarations register symbols -/

theorem mem_varDeclSymsIn {s : Nat} {t : Node} :
    s ∈ varDeclSymsIn t ↔
      ∃ u, InTree u t ∧ u.kind = .variableDeclaration ∧ u.symbol = some s := by
  rw [varDeclSymsIn, List.mem_filterMap]
  constructor
  · rintro ⟨u, hu, hf⟩
    by_cases hk : u.kind = .variableDeclaration
    · rw [if_pos hk] at hf
      exact ⟨u, hu, hk, hf⟩
    · rw [if_neg hk] at hf
      cases hf
  · rintro ⟨u, hu, hk, hsym⟩
    exact ⟨u, hu, by rw [if_pos hk]; exact hsym⟩

theorem varDeclSymsIn_of_child {s : Nat} {c t : Node} (hc : c ∈ t.children)
    (hs : s ∈ varDeclSymsIn c) : s ∈ varDeclSymsIn t := by
  rw [mem_varDeclSymsIn] at hs ⊢
  obtain ⟨u, hu, hk, hsym⟩ := hs
  exact ⟨u, hu.trans (InTree.child hc), hk, hsym⟩

theorem varDeclSymsIn_self {s : Nat} {t : Node} (hk : t.kind = .variableDeclaration)
    (hsym : t.symbol = some s) : s ∈ varDeclSymsIn t :=
  mem_varDeclSymsIn.mpr ⟨t, InTree.refl t, hk, hsym⟩

theorem isLocalIn_of_tail {stack : List (List Nat)} {s : Nat}
    (h : isLocalIn stack.tail s = true) : isLocalIn stack s = true := by
  cases stack with
  | nil => exact h
  | cons f rest =>
    rw [isLocalIn] at h ⊢
    simp only [List.any_cons, Bool.or_eq_true]
    exact Or.inr (by simpa [isLocalIn] using h)

theorem isLocalIn_pushFrame {st : TravSt} {s : Nat}
    (h : isLocalIn (pushFrame st).stack s = true) : isLocalIn st.stack s = true := by
  rw [pushFrame] at h
  simp only [isLocalIn, List.any_cons, Bool.or_eq_true] at h
  rcases h with h | h
  · simp at h
  · simpa [isLocalIn] using h

theorem isLocalIn_addLocal {st : TravSt} {s0 s : Nat}
    (h : isLocalIn (addLocal st s0).stack s = true) :
    s = s0 ∨ isLocalIn st.stack s = true := by
  obtain ⟨stack, reports, aborted⟩ := st
  cases stack with
  | nil => exact Or.inr h
  | cons f rest =>
    rw [addLocal] at h
    dsimp only at h
    by_cases hmem : f.contains s0
    · rw [if_pos hmem] at h
      exact Or.inr h
    · rw [if_neg hmem] at h
      simp only [isLocalIn, List.any_cons, Bool.or_eq_true] at h
      rcases h with h | h
      · have hs : s ∈ f ++ [s0] := by simpa using h
        rcases List.mem_append.mp hs with hf | hs0
        · refine Or.inr ?_
          simp only [isLocalIn, List.any_cons, Bool.or_eq_true]
          exact Or.inl (by simpa using hf)
        · simp only [List.mem_singleton] at hs0
          exact Or.inl hs0
      · refine Or.inr ?_
        simp only [isLocalIn, List.any_cons, Bool.or_eq_true]
        exact Or.inr h

theorem analyzeFrameList_locality {recFrame : TravSt → Node → TravSt}
    (hstep : ∀ st c s, isLocalIn (recFrame st c).stack s = true →
      isLocalIn st.stack s = true ∨ s ∈ varDeclSymsIn c) :
    ∀ (l : List Node) (st : TravSt) (s : Nat),
      isLocalIn (analyzeFrameList recFrame st l).stack s = true →
      isLocalIn st.stack s = true ∨ ∃ c ∈ l, s ∈ varDeclSymsIn c := by
  intro l
  induction l with
  | nil => exact fun st s h => Or.inl h
  | cons c rest ih =>
    intro st s h
    rw [analyzeFrameList] at h
    rcases ih (recFrame st c) s h with h1 | ⟨d, hd, hds⟩
    · rcases hstep st c s h1 with h2 | h2
      · exact Or.inl h2
      · exact Or.inr ⟨c, by simp, h2⟩
    · exact Or.inr ⟨d, by simp [hd], hds⟩

/-- One traversal step can only make local the symbols of variable
declarations inside the visited subtree: parameters (and anything else)
are never registered in a scope frame. -/
theorem analyzeFrame_locality (wfuel : Nat) :
    ∀ (fuel : Nat) (fnDecl : Node) (st : TravSt) (t : Node) (s : Nat),
      isLocalIn (analyzeFrame wfuel fuel fnDecl st t).stack s = true →
      isLocalIn st.stack s = true ∨ s ∈ varDeclSymsIn t := by
  intro fuel
  induction fuel with
  | zero =>
    intro fnDecl st t s h
    rw [analyzeFrame] at h
    exact Or.inl h
  | succ fuel ih =>
    intro fnDecl st t s h
    have hstep : ∀ st2 c s2, isLocalIn (analyzeFrame wfuel fuel fnDecl st2 c).stack s2 = true →
        isLocalIn st2.stack s2 = true ∨ s2 ∈ varDeclSymsIn c :=
      fun st2 c s2 => ih fnDecl st2 c s2
    rw [analyzeFrame] at h
    by_cases h1 : st.aborted
    · rw [if_pos h1] at h
      exact Or.inl h
    · rw [if_neg h1] at h
      by_cases h2 : t.kind = .classDeclaration
      · rw [if_pos h2, ] at h
        rw [analyzeClassWith_stack] at h
        exact Or.inl h
      · rw [if_neg h2] at h
        by_cases h3 : t.kind = .functionDeclaration
        · rw [if_pos h3] at h
          rw [analyzeFunctionWith_stack] at h
          exact Or.inl h
        · rw [if_neg h3] at h
          by_cases h4 : t.kind = .block
          · rw [if_pos h4] at h
            have hloc : isLocalIn (analyzeFrameList (analyzeFrame wfuel fuel fnDecl)
                (pushFrame st) t.children).stack s = true := by
              by_cases hab2 : (analyzeFrameList (analyzeFrame wfuel fuel fnDecl)
                  (pushFrame st) t.children).aborted
              · rw [if_pos hab2] at h
                exact h
              · rw [if_neg hab2] at h
                exact isLocalIn_of_tail h
            rcases analyzeFrameList_locality hstep t.children (pushFrame st) s hloc with
              h5 | ⟨c, hc, hcs⟩
            · exact Or.inl (isLocalIn_pushFrame h5)
            · exact Or.inr (varDeclSymsIn_of_child hc hcs)
          · rw [if_neg h4] at h
            by_cases h5 : t.kind = .variableDeclaration
            · rw [if_pos h5] at h
              cases hsym : t.symbol with
              | none =>
                rw [hsym] at h
                rcases analyzeFrameList_locality hstep t.children st s h with
                  h6 | ⟨c, hc, hcs⟩
                · exact Or.inl h6
                · exact Or.inr (varDeclSymsIn_of_child hc hcs)
              | some s0 =>
                rw [hsym] at h
                rcases analyzeFrameList_locality hstep t.children (addLocal st s0) s h with
                  h6 | ⟨c, hc, hcs⟩
                · rcases isLocalIn_addLocal h6 with rfl | h7
                  · exact Or.inr (varDeclSymsIn_self h5 hsym)
                  · exact Or.inl h7
                · exact Or.inr (varDeclSymsIn_of_child hc hcs)
            · rw [if_neg h5] at h
              have hrun := runErrorCheckers_stack t
                (checkersResponses wfuel t fnDecl (isLocalIn st.stack)) st
              by_cases hab3 : (runErrorCheckers t st
                  (checkersResponses wfuel t fnDecl (isLocalIn st.stack))).aborted
              · rw [if_pos hab3] at h
                rw [hrun] at h
                exact Or.inl h
              · rw [if_neg hab3] at h
                rcases analyzeFrameList_locality hstep t.children _ s h with
                  h6 | ⟨c, hc, hcs⟩
                · rw [hrun] at h6
                  exact Or.inl h6
                · exact Or.inr (varDeclSymsIn_of_child hc hcs)

/-! ### Helper lemmas for the claims -/

/-- If the parameter marker occurs among the r-values, the identifier loop
cannot conclude literal-reducibility. -/
theorem isLRRValues_param_not_true {rec : TaintSt → Node → TaintRes} :
    ∀ (l : List RValue) (st : TaintSt) (selfNode : Node) (b : Bool) (st2 : TaintSt),
      RValue.notRValueButFnParam ∈ l →
      isLRRValues rec st selfNode l = .ok b st2 → b = false := by
  intro l
  induction l with
  | nil => intro st selfNode b st2 hmem; cases hmem
  | cons rv rest ih =>
    intro st selfNode b st2 hmem heq
    cases rv with
    | notRValueButFnParam =>
      rw [isLRRValues] at heq
      injection heq with hb _
      exact hb.symm
    | expr e =>
      rw [isLRRValues] at heq
      have hmem2 : RValue.notRValueButFnParam ∈ rest := by
        rcases List.mem_cons.mp hmem with h | h
        · cases h
        · exact h
      cases hx : rec st e with
      | err => rw [hx] at heq; simp at heq
      | ok bx stx =>
        rw [hx] at heq
        cases bx with
        | true =>
          dsimp only at heq
          exact ih stx selfNode b st2 hmem2 heq
        | false =>
          dsimp only at heq
          injection heq with hb _
          exact hb.symm

/-- If no argument has an injection failure, the argument loop reports
nothing. -/
theorem findInjectionInArgs_noError {fuel : Nat} {fnDecl : Node} :
    ∀ l : List Node, (∀ a ∈ l, checkCallForInjection fuel fnDecl a = .noError) →
      findInjectionInArgs fuel fnDecl l = .ok none := by
  intro l
  induction l with
  | nil => intro _; rfl
  | cons a rest ih =>
    intro h
    rw [findInjectionInArgs, h a (by simp)]
    exact ih (fun d hd => h d (by simp [hd]))

theorem lookupCache_nil (i : Nat) : lookupCache [] i = none := rfl

theorem noFalse_empty : NoFalse ⟨[], []⟩ := by
  intro i
  rw [lookupCache_nil]
  simp

/-! ### Facts about the concrete programs -/

theorem w1fn_wellFormed : WellFormed w1fn :=
  wellFormed_of_bool (by decide : wellFormedB 50 w1fn = true)

theorem w2fn_wellFormed : WellFormed w2fn :=
  wellFormed_of_bool (by decide : wellFormedB 50 w2fn = true)

theorem w8fn_wellFormed : WellFormed w8fn :=
  wellFormed_of_bool (by decide : wellFormedB 50 w8fn = true)

theorem w1fn_size : size w1fn = 29 := by
  simp [w1fn, w1varDeclZ, w1plusExpr, w1assign, w1rawCall, w1strA, w1zArg,
    mkRawCallee, mkIdent, mkName, mkTok, mkStr, size, sizeList, Node.children]

theorem w2fn_size : size w2fn = 18 := by
  simp [w2fn, w2paramP, w2rawCall, w2pArg, mkRawCallee, mkIdent, mkName, mkTok,
    mkStr, size, sizeList, Node.children]

theorem w8fn_size : size w8fn = 29 := by
  simp [w8fn, w8varDeclX, w8varDeclY, w8plusExpr, w8rawCall, w8strA, w8strB,
    w8xUse, w8yArg, mkRawCallee, mkIdent, mkName, mkTok, mkStr, size, sizeList,
    Node.children]

theorem w1zArg_inTree : InTree w1zArg w1fn := by
  simp only [InTree, allSubtrees, allSubtreesList, w1fn, w1varDeclZ, w1plusExpr,
    w1assign, w1rawCall, w1strA, w1zArg, mkRawCallee, mkIdent, mkName, mkTok,
    mkStr, Node.children]
  simp

theorem w2pArg_inTree : InTree w2pArg w2fn := by
  simp only [InTree, allSubtrees, allSubtreesList, w2fn, w2paramP, w2rawCall,
    w2pArg, mkRawCallee, mkIdent, mkName, mkTok, mkStr, Node.children]
  simp

theorem w8yArg_inTree : InTree w8yArg w8fn := by
  simp only [InTree, allSubtrees, allSubtreesList, w8fn, w8varDeclX, w8varDeclY,
    w8plusExpr, w8rawCall, w8strA, w8strB, w8xUse, w8yArg, mkRawCallee, mkIdent,
    mkName, mkTok, mkStr, Node.children]
  simp

/-! ### The claims -/

/-- C2: re-entering a node already present in the memoization map (in
particular a node marked provisionally `true` while under evaluation)
returns the cached mark instead of recursing; on the cyclic program
`let z = "a"; z = z + z; ctxt.client.raw(z)` the taint query terminates
with a definite result whenever the fuel exceeds the arena size, `z` is
classified literal-reducible, and the rule emits no sqlInjection
diagnostic. -/
theorem claim_c2_cycle_termination :
    (∀ (wfuel : Nat) (fnDecl : Node) (fuel : Nat) (st : TaintSt) (t : Node) (b : Bool),
      lookupCache st.cache t.nid = some b →
      isLRFuel wfuel fnDecl (fuel + 1) st t = .ok b st) ∧
    (∀ fuel, size w1fn < fuel →
      ∃ b st2, isLRFuel fuel w1fn fuel ⟨[], []⟩ w1zArg = .ok b st2) ∧
    checkCallForInjection 50 w1fn w1zArg = .noError ∧
    (analyzeFunction 50 w1fn).reports = [] ∧
    (analyzeFunction 50 w1fn).aborted = false := by
  refine ⟨?_, ?_, by decide, by decide, by decide⟩
  · intro wfuel fnDecl fuel st t b h
    rw [isLRFuel, h]
  · intro fuel hfuel
    have hcnt : uncachedCount w1fn ⟨[], []⟩ < fuel :=
      lt_of_le_of_lt (uncachedCount_le_size w1fn) hfuel
    obtain ⟨b, st2, heq, _, _⟩ :=
      isLRFuel_sufficient w1fn_wellFormed fuel fuel ⟨[], []⟩ w1zArg w1zArg_inTree hcnt
    exact ⟨b, st2, heq⟩

/-- Witness for C2 at concrete inputs: with the argument node (id 33)
already cached `true`, the evaluator returns the cached mark unchanged,
and on the empty initial state the query at fuel 50 produces a result. -/
theorem claim_c2_cycle_termination_witness :
    isLRFuel 50 w1fn 50 ⟨[(33, true)], []⟩ w1zArg = .ok true ⟨[(33, true)], []⟩ ∧
    (∃ b st2, isLRFuel 50 w1fn 50 ⟨[], []⟩ w1zArg = .ok b st2) := by
  constructor
  · exact claim_c2_cycle_termination.1 50 w1fn 49 ⟨[(33, true)], []⟩ w1zArg true rfl
  · exact claim_c2_cycle_termination.2.1 50 (by rw [w1fn_size]; omega)

/-- C3: when the checked argument of a raw-query call is found not
literal-reducible, the collected root-problem set holds exactly one node,
so the panic guarding that condition never fires, and the sqlInjection
diagnostic carries that single node's source line number and text. -/
theorem claim_c3_single_root_problem {fnDecl arg : Node} {fuel : Nat}
    (hw : WellFormed fnDecl) (harg : InTree arg fnDecl)
    (hfuel : size fnDecl < fuel) :
    ∃ b st2, isLRFuel fuel fnDecl fuel ⟨[], []⟩ arg = .ok b st2 ∧
      checkCallForInjection fuel fnDecl arg ≠ .panicked ∧
      (b = false → ∃ r, st2.roots = [r] ∧
        checkCallForInjection fuel fnDecl arg = .sqlInjection r.line r.text) := by
  have hcnt : uncachedCount fnDecl ⟨[], []⟩ < fuel :=
    lt_of_le_of_lt (uncachedCount_le_size fnDecl) hfuel
  obtain ⟨b, st2, heq, _, _⟩ :=
    isLRFuel_sufficient hw fuel fuel ⟨[], []⟩ arg harg hcnt
  have hroots := isLRFuel_rootsOk fuel fnDecl fuel ⟨[], []⟩ arg b st2 noFalse_empty heq
  refine ⟨b, st2, heq, ?_, ?_⟩
  · cases b with
    | true =>
      rw [checkCallForInjection, heq]
      simp
    | false =>
      obtain ⟨r, hr⟩ := hroots.2 rfl
      rw [addRoot_nil] at hr
      rw [checkCallForInjection, heq]
      dsimp only
      rw [hr]
      simp
  · intro hb
    subst hb
    obtain ⟨r, hr⟩ := hroots.2 rfl
    rw [addRoot_nil] at hr
    refine ⟨r, hr, ?_⟩
    rw [checkCallForInjection, heq]
    dsimp only
    rw [hr]

/-- Witness for C3 at concrete inputs: the parameter-tainted program `w2fn`
with its raw-query argument `p`. -/
theorem claim_c3_witness :
    ∃ b st2, isLRFuel 50 w2fn 50 ⟨[], []⟩ w2pArg = .ok b st2 ∧
      checkCallForInjection 50 w2fn w2pArg ≠ .panicked ∧
      (b = false → ∃ r, st2.roots = [r] ∧
        checkCallForInjection 50 w2fn w2pArg = .sqlInjection r.line r.text) :=
  claim_c3_single_root_problem w2fn_wellFormed w2pArg_inTree
    (by rw [w2fn_size]; omega)

/-- C1: an identifier argument of a recognized raw-query call that traces
back to a bare function parameter (the traced r-values contain the
parameter marker) is classified not literal-reducible, and the checker
emits a sqlInjection diagnostic for that call. -/
theorem claim_c1_parameter_taint {fnDecl callNode arg : Node} {rest : List Node}
    {rvs : List RValue} {fuel : Nat} (isLocal : Nat → Bool)
    (hw : WellFormed fnDecl) (harg : InTree arg fnDecl)
    (hfuel : size fnDecl < fuel)
    (hkind : callNode.kind = .callExpression)
    (hrecog : maybeGetArgsFromRawSqlCallSite fuel callNode = some (arg :: rest))
    (hidkind : arg.kind = .identifier)
    (hrvs : getRValuesAssignedToIdentifier fuel fnDecl arg = .ok rvs)
    (hparam : RValue.notRValueButFnParam ∈ rvs) :
    ∃ st2 r, isLRFuel fuel fnDecl fuel ⟨[], []⟩ arg = .ok false st2 ∧
      st2.roots = [r] ∧
      checkCallForInjection fuel fnDecl arg = .sqlInjection r.line r.text ∧
      isSqlInjection fuel callNode fnDecl isLocal =
        .ok (some (.msgWithData "sqlInjection" r.line r.text)) := by
  have hcnt : uncachedCount fnDecl ⟨[], []⟩ < fuel :=
    lt_of_le_of_lt (uncachedCount_le_size fnDecl) hfuel
  obtain ⟨b, st2, heq, _, _⟩ :=
    isLRFuel_sufficient hw fuel fuel ⟨[], []⟩ arg harg hcnt
  have hbfalse : b = false := by
    cases fuel with
    | zero => omega
    | succ f =>
      rw [isLRFuel] at heq
      dsimp only at heq
      rw [lookupCache_nil] at heq
      dsimp only at heq
      cases hwrc : isLRWithoutResultCache (isLRFuel (f + 1) fnDecl f) (f + 1)
          fnDecl ⟨setCache [] arg.nid true, []⟩ arg with
      | err => rw [hwrc] at heq; exact absurd heq (by simp)
      | ok bw stw =>
        rw [hwrc] at heq
        dsimp only at heq
        injection heq with hb _
        rw [isLRWithoutResultCache, hidkind] at hwrc
        dsimp only at hwrc
        rw [hrvs] at hwrc
        dsimp only at hwrc
        have hbw := isLRRValues_param_not_true rvs _ arg bw stw hparam hwrc
        exact hb ▸ hbw
  subst hbfalse
  have hroots := isLRFuel_rootsOk fuel fnDecl fuel ⟨[], []⟩ arg false st2
    noFalse_empty heq
  obtain ⟨r, hr⟩ := hroots.2 rfl
  rw [addRoot_nil] at hr
  have hcheck : checkCallForInjection fuel fnDecl arg = .sqlInjection r.line r.text := by
    rw [checkCallForInjection, heq]
    dsimp only
    rw [hr]
  refine ⟨st2, r, heq, hr, hcheck, ?_⟩
  rw [isSqlInjection, if_pos hkind, hrecog]
  dsimp only
  rw [findInjectionInArgs, hcheck]

/-- Witness for C1 at concrete inputs: the program `w2fn` passes its bare
parameter `p` to `ctxt.client.raw`. -/
theorem claim_c1_witness :
    ∃ st2 r, isLRFuel 50 w2fn 50 ⟨[], []⟩ w2pArg = .ok false st2 ∧
      st2.roots = [r] ∧
      checkCallForInjection 50 w2fn w2pArg = .sqlInjection r.line r.text ∧
      isSqlInjection 50 w2rawCall w2fn (fun _ => false) =
        .ok (some (.msgWithData "sqlInjection" r.line r.text)) :=
  claim_c1_parameter_taint (fun _ => false) w2fn_wellFormed w2pArg_inTree
    (by rw [w2fn_size]; omega)
    (rfl : w2rawCall.kind = .callExpression)
    (rfl : maybeGetArgsFromRawSqlCallSite 50 w2rawCall = some [w2pArg])
    (rfl : w2pArg.kind = .identifier)
    (rfl : getRValuesAssignedToIdentifier 50 w2fn w2pArg =
      .ok [.notRValueButFnParam, .notRValueButFnParam])
    (by simp)

/-- C4: every argument generated by the LR grammar — string/number
literals, template expressions all of whose interpolated parts are LR,
binary `+` concatenations of LR operands, parenthesized LR expressions,
and identifiers all of whose traced r-values are LR expressions — is
classified literal-reducible, and a recognized raw-query call all of whose
arguments satisfy the grammar produces no diagnostic. -/
theorem claim_c4_concatenation_closure {fnDecl : Node} {fuel : Nat}
    (hw : WellFormed fnDecl) (hfuel : size fnDecl < fuel) :
    (∀ arg, InTree arg fnDecl → IsLRSpec fuel fnDecl arg →
      checkCallForInjection fuel fnDecl arg = .noError) ∧
    (∀ callNode args isLocal, callNode.kind = .callExpression →
      maybeGetArgsFromRawSqlCallSite fuel callNode = some args →
      (∀ a ∈ args, InTree a fnDecl ∧ IsLRSpec fuel fnDecl a) →
      isSqlInjection fuel callNode fnDecl isLocal = .ok none) := by
  have hpart1 : ∀ arg, InTree arg fnDecl → IsLRSpec fuel fnDecl arg →
      checkCallForInjection fuel fnDecl arg = .noError := by
    intro arg harg hspec
    have hcnt : uncachedCount fnDecl ⟨[], []⟩ < fuel :=
      lt_of_le_of_lt (uncachedCount_le_size fnDecl) hfuel
    obtain ⟨b, st2, heq, _, _⟩ :=
      isLRFuel_sufficient hw fuel fuel ⟨[], []⟩ arg harg hcnt
    have hb := isLRFuel_sound fuel fnDecl fuel ⟨[], []⟩ arg b st2
      noFalse_empty hspec heq
    subst hb
    rw [checkCallForInjection, heq]
  refine ⟨hpart1, ?_⟩
  intro callNode args isLocal hkind hrecog hargs
  rw [isSqlInjection, if_pos hkind, hrecog]
  dsimp only
  exact findInjectionInArgs_noError args
    (fun a ha => hpart1 a (hargs a ha).1 (hargs a ha).2)

/-- Witness for C4 at concrete inputs: in `w8fn`,
`let x = "a"; let y = x + "b"; ctxt.client.raw(y)` — the argument `y` is
an LR concatenation of a traced literal and a literal, and the raw call
yields no diagnostic. -/
theorem claim_c4_witness :
    checkCallForInjection 50 w8fn w8yArg = .noError ∧
    isSqlInjection 50 w8rawCall w8fn (fun _ => false) = .ok none := by
  have hspecA : IsLRSpec 50 w8fn w8strA := .strLit rfl
  have hspecB : IsLRSpec 50 w8fn w8strB := .strLit rfl
  have hspecX : IsLRSpec 50 w8fn w8xUse :=
    .ident rfl
      (rfl : getRValuesAssignedToIdentifier 50 w8fn w8xUse = .ok [.expr w8strA])
      (by simp)
      (by intro e he; simp at he; subst he; exact hspecA)
  have hspecPlus : IsLRSpec 50 w8fn w8plusExpr :=
    .concat rfl rfl rfl hspecX hspecB
  have hspecY : IsLRSpec 50 w8fn w8yArg :=
    .ident rfl
      (rfl : getRValuesAssignedToIdentifier 50 w8fn w8yArg = .ok [.expr w8plusExpr])
      (by simp)
      (by intro e he; simp at he; subst he; exact hspecPlus)
  have h := claim_c4_concatenation_closure w8fn_wellFormed
    (by rw [w8fn_size]; omega : size w8fn < 50)
  refine ⟨h.1 w8yArg w8yArg_inTree hspecY, ?_⟩
  exact h.2 w8rawCall [w8yArg] (fun _ => false) rfl
    (rfl : maybeGetArgsFromRawSqlCallSite 50 w8rawCall = some [w8yArg])
    (by intro a ha; simp at ha; subst ha; exact ⟨w8yArg_inTree, hspecY⟩)

/-- C5 counterexample: in `w3fn` a checker on an earlier subtree throws
(its `for`-initializer declaration has no enclosing variable statement),
the analysis aborts with no reports — even though the later sibling
subtree `ctxt.client.raw(p)` carries a genuine sqlInjection (as emitting
it in isolation shows, and as the otherwise-identical program `w2fn`
demonstrates end to end).  The sibling's diagnostic is suppressed,
refuting the claim as stated. -/
theorem claim_c5_counterexample :
    (analyzeFunction 50 w3fn).aborted = true ∧
    (analyzeFunction 50 w3fn).reports = [] ∧
    checkCallForInjection 50 w3fn w3pArg = .sqlInjection 4 "p" ∧
    (analyzeFunction 50 w2fn).reports =
      [⟨49, CheckerResponse.msgWithData "sqlInjection" 2 "p"⟩] :=
  ⟨by decide, by decide, by decide, by decide⟩

/-- C5 (amended): the traversal deliberately catches no exceptions.  A
throwing checker marks the state aborted and the remaining checkers for
that node do not run; an aborted state is absorbing for the frame analyzer
and for every sibling fold, so subtrees after the failing node are never
analyzed and their diagnostics are never produced (reports accumulated
before the failure are kept in the state, unchanged). -/
theorem claim_c5_exception_aborts_traversal :
    (∀ (node : Node) (st : TravSt) (e : Unit)
        (rest : List (Except Unit (Option CheckerResponse))),
      st.aborted = false →
      runErrorCheckers node st (.error e :: rest) = { st with aborted := true }) ∧
    (∀ (wfuel fuel : Nat) (fnDecl : Node) (st : TravSt) (t : Node),
      st.aborted = true → analyzeFrame wfuel fuel fnDecl st t = st) ∧
    (∀ (wfuel fuel : Nat) (fnDecl : Node) (st : TravSt) (l : List Node),
      st.aborted = true →
      analyzeFrameList (analyzeFrame wfuel fuel fnDecl) st l = st) := by
  refine ⟨?_, ?_, ?_⟩
  · intro node st e rest hab
    rw [runErrorCheckers]
    rw [if_neg (by simp [hab])]
  · intro wfuel fuel fnDecl st t hab
    exact analyzeFrame_aborted wfuel fuel fnDecl st t hab
  · intro wfuel fuel fnDecl st l hab
    exact analyzeFrameList_of_aborted
      (fun st2 c h => analyzeFrame_aborted wfuel fuel fnDecl st2 c h) l st hab

/-- Witness for the amended C5 at concrete inputs: a thrown checker flips
the aborted flag with the pending reports kept, and an aborted state
passes through the frame analyzer unchanged. -/
theorem claim_c5_witness :
    runErrorCheckers w3fn { stack := [[]], reports := [], aborted := false }
      [.error ()] = { stack := [[]], reports := [], aborted := true } ∧
    analyzeFrame 50 50 w3fn { stack := [], reports := [], aborted := true } w3fn =
      { stack := [], reports := [], aborted := true } := by
  constructor
  · exact claim_c5_exception_aborts_traversal.1 w3fn _ () [] rfl
  · exact claim_c5_exception_aborts_traversal.2.1 50 50 w3fn _ w3fn rfl

/-- C6: on an assignment-like binary expression whose left-hand side
reduces (after unwrapping parentheses) to an identifier with a resolvable
symbol, the `mutatesGlobalVariable` checker fires exactly when that symbol
is in no frame of the current scope stack; concretely, `x = 5;` for an
outer `let x = 3;` in a Workflow-decorated method yields exactly one
globalMutation report. -/
theorem claim_c6_global_mutation :
    (∀ (fuel : Nat) (node fnDecl : Node) (stack : List (List Nat))
        (lhs rhs : Node) (s : Nat),
      getLAndRValuesIfAssignment fuel node = .ok (some (lhs, rhs)) →
      lhs.symbol = some s →
      (mutatesGlobalVariable fuel node fnDecl (isLocalIn stack) =
          .ok (some (.msg "globalMutation")) ↔ isLocalIn stack s = false)) ∧
    (analyzeFunction 50 w4fn).reports =
      [⟨125, CheckerResponse.msg "globalMutation"⟩] := by
  refine ⟨?_, by decide⟩
  intro fuel node fnDecl stack lhs rhs s hassign hsym
  rw [mutatesGlobalVariable, hassign]
  dsimp only
  rw [hsym]
  dsimp only
  cases hl : isLocalIn stack s <;> simp

/-- Witness for C6 at concrete inputs: the assignment `x = 5` of `w4fn`,
checked against a stack holding one empty frame (symbol 30 is in no
frame), fires globalMutation. -/
theorem claim_c6_witness :
    mutatesGlobalVariable 50 w4assign w4fn (isLocalIn [[]]) =
      .ok (some (.msg "globalMutation")) := by
  have h := claim_c6_global_mutation.1 50 w4assign w4fn [[]]
    (mkIdent 126 30 "x" 2 3)
    (.node { id := 128, kind := .numericLiteral, text := "5", line := 2, col := 7 } [])
    30 rfl rfl
  exact h.mpr (by decide)

/-- C7: the scope frames form a stack: analyzing a block leaves the stack
exactly as it was before entry (the frame pushed on entry is popped on
exit), a symbol is local iff some frame currently on the stack contains
it, and hence locality of every symbol — in particular one declared inside
the block — is unchanged once the block exits. -/
theorem claim_c7_scope_stack :
    (∀ (wfuel fuel : Nat) (fnDecl : Node) (st : TravSt) (t : Node),
      t.kind = .block →
      (analyzeFrame wfuel fuel fnDecl st t).aborted = false →
      (analyzeFrame wfuel fuel fnDecl st t).stack = st.stack) ∧
    (∀ (stack : List (List Nat)) (s : Nat),
      isLocalIn stack s = stack.any (fun frame => frame.contains s)) ∧
    (∀ (wfuel fuel : Nat) (fnDecl : Node) (st : TravSt) (t : Node) (s : Nat),
      t.kind = .block →
      (analyzeFrame wfuel fuel fnDecl st t).aborted = false →
      isLocalIn (analyzeFrame wfuel fuel fnDecl st t).stack s =
        isLocalIn st.stack s) := by
  refine ⟨?_, fun stack s => rfl, ?_⟩
  · intro wfuel fuel fnDecl st t hk hab
    exact (analyzeFrame_stack wfuel fuel fnDecl st t).2 hk hab
  · intro wfuel fuel fnDecl st t s hk hab
    rw [(analyzeFrame_stack wfuel fuel fnDecl st t).2 hk hab]

/-- Witness for C7 at concrete inputs: a block declaring symbol 77 is
analyzed on a stack holding one empty frame; afterwards the stack is again
one empty frame and symbol 77 is not local. -/
theorem claim_c7_witness :
    ((analyzeFrame 50 50 w4fn { stack := [[]], reports := [], aborted := false }
        (.node { id := 300, kind := .block }
          [.node { id := 301, kind := .variableDeclaration, symbol := some 77,
                   declKind := some .letKw } []])).stack = [[]]) ∧
    isLocalIn [[]] 77 = false := by
  constructor
  · exact claim_c7_scope_stack.1 50 50 w4fn
      { stack := [[]], reports := [], aborted := false }
      (.node { id := 300, kind := .block }
        [.node { id := 301, kind := .variableDeclaration, symbol := some 77,
                 declKind := some .letKw } []]) rfl (by decide)
  · decide

/-- C8: on `await <call>` whose callee reduces to an identifier or `this`
base: an allow-listed base type passes; otherwise the checker fires iff no
argument of the call has an allow-listed type (the helper escape hatch). -/
theorem claim_c8_await_validator {fuel : Nat} {node functionCall lhs fnDecl : Node}
    (isLocal : Nat → Bool)
    (hkind : node.kind = .awaitExpression)
    (hexpr : awaitGetExpression node = some functionCall)
    (hcall : functionCall.kind = .callExpression)
    (hred : reduceNodeToLeftmostLeaf fuel functionCall = .ok lhs)
    (hbase : lhs.kind = .identifier ∨ lhs.kind = .thisExpression) :
    (awaitableTypes.contains lhs.typeName = true →
      awaitsOnNotAllowedType fuel node fnDecl isLocal = .ok none) ∧
    (awaitableTypes.contains lhs.typeName = false →
      (awaitsOnNotAllowedType fuel node fnDecl isLocal =
          .ok (some (.msg "awaitingOnNotAllowedType")) ↔
        validTypeExistsInFunctionCallParams functionCall awaitableTypes = false)) := by
  have hbody : awaitsOnNotAllowedType fuel node fnDecl isLocal =
      (if !(awaitableTypes.contains lhs.typeName) then
        (if ignoreAwaitsForCallsWithAContextParam
            && validTypeExistsInFunctionCallParams functionCall awaitableTypes then
          (.ok none : Except Unit (Option CheckerResponse))
        else .ok (some (.msg "awaitingOnNotAllowedType")))
      else .ok none) := by
    rw [awaitsOnNotAllowedType, if_pos hkind, hexpr]
    dsimp only
    rw [if_neg (by simp [hcall])]
    rw [hred]
    dsimp only
    rw [if_neg (by rcases hbase with h | h <;> simp [h])]
  constructor
  · intro htrue
    rw [hbody, htrue]
    rfl
  · intro hfalse
    rw [hbody, hfalse]
    cases hv : validTypeExistsInFunctionCallParams functionCall awaitableTypes <;>
      simp [ignoreAwaitsForCallsWithAContextParam]

/-- Witness for C8 at concrete inputs: `await ctxt.foo()` with `ctxt` of
the sanctioned type passes; the same shape with an arbitrary class type
and no sanctioned-typed argument fires. -/
theorem claim_c8_witness :
    awaitsOnNotAllowedType 50 w6awaitOk w6awaitOk (fun _ => false) = .ok none ∧
    awaitsOnNotAllowedType 50 w6awaitBad w6awaitBad (fun _ => false) =
      .ok (some (.msg "awaitingOnNotAllowedType")) := by
  constructor
  · exact (claim_c8_await_validator (fun _ => false)
      (rfl : w6awaitOk.kind = .awaitExpression)
      (rfl : awaitGetExpression w6awaitOk = some w6callOk)
      (rfl : w6callOk.kind = .callExpression)
      (rfl : reduceNodeToLeftmostLeaf 50 w6callOk =
        .ok (mkIdent 164 60 "ctxt" 1 9 "WorkflowContext"))
      (Or.inl rfl)).1 (by decide)
  · exact ((claim_c8_await_validator (fun _ => false)
      (rfl : w6awaitBad.kind = .awaitExpression)
      (rfl : awaitGetExpression w6awaitBad = some w6callBad)
      (rfl : w6callBad.kind = .callExpression)
      (rfl : reduceNodeToLeftmostLeaf 50 w6callBad =
        .ok (mkIdent 174 61 "obj" 1 9 "MyClass"))
      (Or.inl rfl)).2 (by decide)).mpr (by decide)

/-- C9: the banned-call detector fires on a call or construction iff the
concatenated token text of its callee is a key of the table and the
argument count lies in that key's inclusive range; `setTimeout(fn)` is
flagged, `setTimeout()` is not. -/
theorem claim_c9_banned_call_arity :
    (∀ (node fnDecl callee : Node) (isLocal : Nat → Bool),
      (node.kind = .callExpression ∨ node.kind = .newExpression) →
      getExpression node = some callee →
      (callsBannedFunction node fnDecl isLocal =
          .ok (some (.msg (calleeTokenText callee))) ↔
        ∃ mn mx, bannedFunctionsWithArgCountRanges (calleeTokenText callee) =
            some (mn, mx) ∧
          mn ≤ (getArguments node).length ∧ (getArguments node).length ≤ mx)) ∧
    callsBannedFunction w7setTimeoutOne w7setTimeoutOne (fun _ => false) =
      .ok (some (.msg "setTimeout")) ∧
    callsBannedFunction w7setTimeoutZero w7setTimeoutZero (fun _ => false) =
      .ok none := by
  refine ⟨?_, rfl, rfl⟩
  intro node fnDecl callee isLocal hk hexpr
  rw [callsBannedFunction, if_pos hk, hexpr]
  dsimp only
  cases hb : bannedFunctionsWithArgCountRanges (calleeTokenText callee) with
  | none => simp
  | some p =>
    obtain ⟨mn, mx⟩ := p
    dsimp only
    by_cases hc : mn ≤ (getArguments node).length ∧ (getArguments node).length ≤ mx
    · rw [if_pos hc]
      constructor
      · intro _
        exact ⟨mn, mx, rfl, hc.1, hc.2⟩
      · intro _
        rfl
    · rw [if_neg hc]
      constructor
      · intro h
        exact absurd h (by simp)
      · rintro ⟨mn2, mx2, hsome, h1, h2⟩
        simp at hsome
        obtain ⟨rfl, rfl⟩ := hsome
        exact absurd ⟨h1, h2⟩ hc

/-- Witness for C9 at concrete inputs: `setTimeout(fn)` sits at the
minimum of the table's `{1, unbounded}` range and is flagged. -/
theorem claim_c9_witness :
    callsBannedFunction w7setTimeoutOne w7setTimeoutOne (fun _ => false) =
      .ok (some (.msg "setTimeout")) := by
  exact (claim_c9_banned_call_arity.1 w7setTimeoutOne w7setTimeoutOne
    (mkName 191 "setTimeout") (fun _ => false) (Or.inl rfl) rfl).mpr
    ⟨1, 9007199254740991, by decide, by decide, by decide⟩

/-- C10: traversal registers only variable-declaration symbols in scope
frames — a symbol newly local after analyzing a subtree is the symbol of
some variable declaration in it, never a bare parameter — so an assignment
to one of the function's own parameters (program `w5fn`, `p = 5;`) is
reported as globalMutation even though `p` is lexically local. -/
theorem claim_c10_parameter_not_local :
    (∀ (wfuel fuel : Nat) (fnDecl : Node) (st : TravSt) (t : Node) (s : Nat),
      isLocalIn (analyzeFrame wfuel fuel fnDecl st t).stack s = true →
      isLocalIn st.stack s = true ∨ s ∈ varDeclSymsIn t) ∧
    (analyzeFunction 50 w5fn).reports =
      [⟨147, CheckerResponse.msg "globalMutation"⟩] :=
  ⟨fun wfuel fuel fnDecl st t s h =>
    analyzeFrame_locality wfuel fuel fnDecl st t s h, by decide⟩

/-- Witness for C10 at concrete inputs: after analyzing a variable
declaration of symbol 77 the symbol is local, and the theorem places it
among the subtree's variable-declaration symbols (the prior stack held no
symbol at all). -/
theorem claim_c10_witness :
    isLocalIn [[]] 77 = true ∨
      77 ∈ varDeclSymsIn
        (.node { id := 301, kind := .variableDeclaration, symbol := some 77,
                 declKind := some .letKw } []) :=
  claim_c10_parameter_not_local.1 50 50 w5fn
    { stack := [[]], reports := [], aborted := false }
    (.node { id := 301, kind := .variableDeclaration, symbol := some 77,
             declKind := some .letKw } []) 77 (by decide)
